import Mathlib

set_option linter.unusedVariables false

/-!
Verification of the crpipe workflow definition (`pipeline.py`, `stages.py`).

The pipeline wires bioinformatics stages together with pattern-based file
binding: a stage's filter is either a literal trailing suffix
(`suffix('.fastq.gz')`) or a full-path pattern with a single alphanumeric
capture group (`formatter('.+/(?P<sample>[a-zA-Z0-9]+)_R1.fastq.gz')`).
We embed the file-binding logic, the resulting task instances, and the
scheduling state machine, and prove the spec's claims about them.
-/

namespace Crpipe

/-- Characters accepted by the `[a-zA-Z0-9]` class of the sample capture
group used throughout `pipeline.py`. -/
def isAlnum (c : Char) : Bool :=
  (('a' ≤ c && c ≤ 'z') || ('A' ≤ c && c ≤ 'Z') || ('0' ≤ c && c ≤ '9'))

/-- `peelFront pat l` removes the exact sequence `pat` from the front of `l`,
returning the remainder, or `none` when `l` does not start with `pat`. -/
def peelFront : List Char → List Char → Option (List Char)
  | [], l => some l
  | _ :: _, [] => none
  | a :: as, b :: bs => if a = b then peelFront as bs else none

theorem peelFront_eq_some {pat l r : List Char} :
    peelFront pat l = some r ↔ l = pat ++ r := by
  induction pat generalizing l with
  | nil => simp [peelFront]
  | cons a as ih =>
    cases l with
    | nil => simp [peelFront]
    | cons b bs =>
      by_cases hab : a = b
      · subst hab
        simp [peelFront, ih]
      · simp [peelFront, hab, Ne.symm hab]

/-- Result of matching a `formatter` pattern backwards: the reversed
directory part and the reversed sample part. -/
def fmatchRev (tagRev : List Char) (pRev : List Char) : Option (List Char × List Char) :=
  match peelFront tagRev pRev with
  | none => none
  | some rest =>
    match rest.dropWhile isAlnum with
    | '/' :: dRev =>
      if rest.takeWhile isAlnum ≠ [] ∧ dRev ≠ [] ∧ dRev.all (· ≠ '\n') then
        some (dRev, rest.takeWhile isAlnum)
      else none
    | _ => none

/-- Matching of the `formatter('.+/(?P<sample>[a-zA-Z0-9]+)' ++ tag ++ ')')`
patterns of `pipeline.py` against a full path: the path must decompose as
`dir ++ "/" ++ sample ++ tag` with `sample` a nonempty alphanumeric run,
`dir` nonempty and newline-free (the `.+` part).  Returns the captured
`{path[0]}` and `{sample[0]}` values. -/
def fmatch (tag : String) (p : String) : Option (String × String) :=
  match fmatchRev tag.data.reverse p.data.reverse with
  | some (dRev, sRev) => some (⟨dRev.reverse⟩, ⟨sRev.reverse⟩)
  | none => none

/-- `suffix(tag)` filters of `pipeline.py`: if `p` ends with the literal
`tag`, return the stem with the suffix removed. -/
def sufMatch (tag : String) (p : String) : Option String :=
  match peelFront tag.data.reverse p.data.reverse with
  | some stemRev => some ⟨stemRev.reverse⟩
  | none => none

theorem sufMatch_eq_some {tag p stem : String} :
    sufMatch tag p = some stem ↔ p = stem ++ tag := by
  unfold sufMatch
  constructor
  · intro h
    cases he : peelFront tag.data.reverse p.data.reverse with
    | none => rw [he] at h; exact absurd h (by simp)
    | some r =>
      rw [he] at h
      simp only [Option.some.injEq] at h
      have hr := peelFront_eq_some.mp he
      have hp : p.data = r.reverse ++ tag.data := by
        have := congrArg List.reverse hr
        simpa using this
      have hsd : stem.data = r.reverse := by
        have := congrArg String.data h
        simpa using this.symm
      rw [String.ext_iff, String.data_append, hsd]
      exact hp
  · intro h
    subst h
    have hd : (stem ++ tag).data.reverse = tag.data.reverse ++ stem.data.reverse := by
      rw [String.data_append]
      simp
    rw [hd, (peelFront_eq_some (r := stem.data.reverse)).mpr rfl]
    simp only [Option.some.injEq]
    rw [String.ext_iff]
    simp

theorem takeWhile_append_stop {p : Char → Bool} {a : List Char} (ha : ∀ x ∈ a, p x = true)
    {c : Char} (hc : p c = false) (b : List Char) :
    (a ++ c :: b).takeWhile p = a ∧ (a ++ c :: b).dropWhile p = c :: b := by
  induction a with
  | nil => simp [List.takeWhile, List.dropWhile, hc]
  | cons x xs ih =>
    have hx : p x = true := ha x (by simp)
    have ih' := ih (fun y hy => ha y (by simp [hy]))
    simp [List.takeWhile, List.dropWhile, hx, ih'.1, ih'.2]

/-- Reconstruction: a successful `formatter` match decomposes the path as
`dir ++ "/" ++ sample ++ tag` with all side conditions of the pattern. -/
theorem fmatch_eq_some {tag p d s : String} (h : fmatch tag p = some (d, s)) :
    p = d ++ "/" ++ s ++ tag ∧ s ≠ "" ∧ (∀ c ∈ s.data, isAlnum c = true) ∧
      d ≠ "" ∧ (∀ c ∈ d.data, c ≠ '\n') := by
  unfold fmatch at h
  cases hm : fmatchRev tag.data.reverse p.data.reverse with
  | none => rw [hm] at h; exact absurd h (by simp)
  | some pair =>
    rw [hm] at h
    obtain ⟨dRev, sRev⟩ := pair
    simp only [Option.some.injEq, Prod.mk.injEq] at h
    obtain ⟨hd, hs⟩ := h
    unfold fmatchRev at hm
    cases hp : peelFront tag.data.reverse p.data.reverse with
    | none => rw [hp] at hm; exact absurd hm (by simp)
    | some rest =>
      rw [hp] at hm
      simp only at hm
      split at hm
      case h_2 => exact absurd hm (by simp)
      case h_1 dr hdw =>
        split at hm
        case isFalse => exact absurd hm (by simp)
        case isTrue hcond =>
          simp only [Option.some.injEq, Prod.mk.injEq] at hm
          obtain ⟨hm1, hm2⟩ := hm
          subst hm1
          have hrest : rest = sRev ++ '/' :: dr := by
            rw [← hm2, ← hdw]
            exact (List.takeWhile_append_dropWhile isAlnum rest).symm
          have hpdata : p.data.reverse = tag.data.reverse ++ (sRev ++ '/' :: dr) := by
            rw [← hrest]; exact peelFront_eq_some.mp hp
          have hpd : p.data = dr.reverse ++ '/' :: (sRev.reverse ++ tag.data) := by
            have := congrArg List.reverse hpdata
            simpa [List.reverse_append] using this
          have hsall : ∀ c ∈ sRev, isAlnum c = true := by
            intro c hcm
            rw [← hm2] at hcm
            exact List.mem_takeWhile_imp hcm
          refine ⟨?_, ?_, ?_, ?_, ?_⟩
          · rw [String.ext_iff]
            have : (d ++ "/" ++ s ++ tag).data = d.data ++ '/' :: (s.data ++ tag.data) := by
              simp [String.data_append]
            rw [this, ← hd, ← hs]
            simpa using hpd
          · intro hemp
            have : sRev = [] := by
              have := congrArg String.data hemp
              rw [← hs] at this
              simpa using this
            rw [← hm2] at this
            exact hcond.1 this
          · intro c hcm
            rw [← hs] at hcm
            simp only [List.mem_reverse] at hcm
            exact hsall c hcm
          · intro hemp
            have : dr = [] := by
              have := congrArg String.data hemp
              rw [← hd] at this
              simpa using this
            exact hcond.2.1 this
          · intro c hcm
            rw [← hd] at hcm
            simp only [List.mem_reverse] at hcm
            have := List.all_eq_true.mp hcond.2.2 c hcm
            simpa using this

/-- Round trip: substituting captured fields back into the same shape of
template and re-matching recovers the fields. -/
theorem fmatch_mk {tag d s : String} (hd : d ≠ "") (hdn : ∀ c ∈ d.data, c ≠ '\n')
    (hs : s ≠ "") (hsa : ∀ c ∈ s.data, isAlnum c = true) :
    fmatch tag (d ++ "/" ++ s ++ tag) = some (d, s) := by
  have hpd : (d ++ "/" ++ s ++ tag).data = d.data ++ '/' :: (s.data ++ tag.data) := by
    simp [String.data_append]
  have hrev : (d ++ "/" ++ s ++ tag).data.reverse
      = tag.data.reverse ++ (s.data.reverse ++ '/' :: d.data.reverse) := by
    rw [hpd]
    simp [List.reverse_append]
  unfold fmatch fmatchRev
  rw [hrev, (peelFront_eq_some (r := s.data.reverse ++ '/' :: d.data.reverse)).mpr rfl]
  have htw := takeWhile_append_stop (p := isAlnum)
    (a := s.data.reverse) (fun x hx => hsa x (List.mem_reverse.mp hx))
    (c := '/') (by decide) d.data.reverse
  simp only [htw.1, htw.2]
  rw [if_pos ?_]
  · simp only [Option.some.injEq, Prod.mk.injEq]
    constructor
    · rw [String.ext_iff]; simp
    · rw [String.ext_iff]; simp
  · refine ⟨?_, ?_, ?_⟩
    · intro hemp
      exact hs (by rw [String.ext_iff]; simpa using hemp)
    · intro hemp
      exact hd (by rw [String.ext_iff]; simpa using hemp)
    · rw [List.all_eq_true]
      intro c hcm
      simpa using hdn c (List.mem_reverse.mp hcm)

/-- A concrete task instance discovered at graph-build time: its stage name,
the captured `sample` field (when the stage's filter captures one), the
resolved input paths in order, the extra (non-file) arguments, and the
resolved output paths. -/
structure TaskInstance where
  stage : String
  sample : Option String
  inputs : List String
  extras : List String
  outputs : List String
deriving DecidableEq, Repr

instance : Inhabited TaskInstance := ⟨⟨"", none, [], [], []⟩⟩

/-- `fastqc` stage: every root FASTQ ending in `.fastq.gz`, output suffix
replaced by `_fastqc`. -/
def fastqcStage (fastqs : List String) : List TaskInstance :=
  fastqs.filterMap fun f => (sufMatch ".fastq.gz" f).map fun stem =>
    ⟨"fastqc", none, [f], [], [stem ++ "_fastqc"]⟩

/-- The five BWA index files produced from a reference stem. -/
def bwaIndexTags : List String := [".fa.amb", ".fa.ann", ".fa.pac", ".fa.sa", ".fa.bwt"]

/-- `index_reference_bwa` stage: the reference with suffix `.fa` replaced by
the five BWA index extensions. -/
def indexReferenceBwaStage (ref : String) : List TaskInstance :=
  match sufMatch ".fa" ref with
  | some stem => [⟨"index_reference_bwa", none, [ref], [], bwaIndexTags.map (stem ++ ·)⟩]
  | none => []

/-- `index_reference_samtools` stage: `.fa` replaced by `.fa.fai`. -/
def indexReferenceSamtoolsStage (ref : String) : List TaskInstance :=
  match sufMatch ".fa" ref with
  | some stem => [⟨"index_reference_samtools", none, [ref], [], [stem ++ ".fa.fai"]⟩]
  | none => []

/-- `align_bwa` stage: R1 FASTQ files matching
`formatter('.+/(?P<sample>[a-zA-Z0-9]+)_R1.fastq.gz')`, with the
corresponding R2 file and the reference added as inputs, the sample name as
extra argument, and `{path[0]}/{sample[0]}.bam` as output. -/
def alignBwaStage (fastqs : List String) (ref : String) : List TaskInstance :=
  fastqs.filterMap fun f => (fmatch "_R1.fastq.gz" f).map fun ds =>
    ⟨"align_bwa", some ds.2,
      [f, ds.1 ++ "/" ++ ds.2 ++ "_R2.fastq.gz", ref], [ds.2],
      [ds.1 ++ "/" ++ ds.2 ++ ".bam"]⟩

/-- The flattened list of output paths of a list of task instances; this is
what downstream `output_from(...)` inputs range over. -/
def stageOuts (ts : List TaskInstance) : List String :=
  (ts.map TaskInstance.outputs).flatten

/-- Generic `pipeline.transform` with a `formatter` filter chained onto the
outputs of an upstream stage: for each upstream output matching the pattern,
one instance with the added inputs, extras and the substituted output. -/
def chainStage (nm : String) (tag : String) (ups : List TaskInstance)
    (addIns : String → String → List String) (extraArgs : String → String → List String)
    (outTag : String) : List TaskInstance :=
  (stageOuts ups).filterMap fun o => (fmatch tag o).map fun ds =>
    ⟨nm, some ds.2, o :: addIns ds.1 ds.2, extraArgs ds.1 ds.2,
      [ds.1 ++ "/" ++ ds.2 ++ outTag]⟩

def noAdd : String → String → List String := fun _ _ => []

/-- `sort_alignment`: align outputs matched by
`formatter('.+/(?P<sample>[a-zA-Z0-9]+).bam')`, sorted with sambamba. -/
def sortAlignmentStage (fastqs : List String) (ref : String) : List TaskInstance :=
  chainStage "sort_alignment" ".bam" (alignBwaStage fastqs ref) noAdd noAdd ".sorted.bam"

/-- `index_alignment`: sorted bams indexed with samtools. -/
def indexAlignmentStage (fastqs : List String) (ref : String) : List TaskInstance :=
  chainStage "index_alignment" ".sorted.bam" (sortAlignmentStage fastqs ref) noAdd noAdd
    ".sorted.bam.bai"

/-- `bamtools_stats`: alignment stats from the align outputs. -/
def bamtoolsStatsStage (fastqs : List String) (ref : String) : List TaskInstance :=
  chainStage "bamtools_stats" ".bam" (alignBwaStage fastqs ref) noAdd noAdd ".stats.txt"

/-- `extract_discordant_alignments` on the align outputs. -/
def extractDiscordantStage (fastqs : List String) (ref : String) : List TaskInstance :=
  chainStage "extract_discordant_alignments" ".bam" (alignBwaStage fastqs ref) noAdd noAdd
    ".discordants.unsorted.bam"

/-- `extract_split_read_alignments` on the align outputs. -/
def extractSplitStage (fastqs : List String) (ref : String) : List TaskInstance :=
  chainStage "extract_split_read_alignments" ".bam" (alignBwaStage fastqs ref) noAdd noAdd
    ".splitters.unsorted.bam"

/-- `sort_discordants`: the unsorted discordants bam, with the output-name
stem `{path[0]}/{sample[0]}.discordants` passed as an extra argument. -/
def sortDiscordantsStage (fastqs : List String) (ref : String) : List TaskInstance :=
  chainStage "sort_discordants" ".discordants.unsorted.bam" (extractDiscordantStage fastqs ref)
    noAdd (fun d s => [d ++ "/" ++ s ++ ".discordants"]) ".discordants.bam"

/-- `index_discordants` on the sorted discordants bams. -/
def indexDiscordantsStage (fastqs : List String) (ref : String) : List TaskInstance :=
  chainStage "index_discordants" ".discordants.bam" (sortDiscordantsStage fastqs ref) noAdd noAdd
    ".discordants.bam.bai"

/-- `sort_splitters`: the unsorted splitters bam, with stem extra argument. -/
def sortSplittersStage (fastqs : List String) (ref : String) : List TaskInstance :=
  chainStage "sort_splitters" ".splitters.unsorted.bam" (extractSplitStage fastqs ref)
    noAdd (fun d s => [d ++ "/" ++ s ++ ".splitters"]) ".splitters.bam"

/-- `index_splitters` on the sorted splitters bams. -/
def indexSplittersStage (fastqs : List String) (ref : String) : List TaskInstance :=
  chainStage "index_splitters" ".splitters.bam" (sortSplittersStage fastqs ref) noAdd noAdd
    ".splitters.bam.bai"

/-- `structural_variants_lumpy`: align outputs with the sorted splitters and
discordants bams added as inputs. -/
def lumpyStage (fastqs : List String) (ref : String) : List TaskInstance :=
  chainStage "structural_variants_lumpy" ".bam" (alignBwaStage fastqs ref)
    (fun d s => [d ++ "/" ++ s ++ ".splitters.bam", d ++ "/" ++ s ++ ".discordants.bam"])
    noAdd ".lumpy.vcf"

/-- `genotype_svtyper`: lumpy VCFs with the sorted alignment and splitters
bams added as inputs. -/
def svtyperStage (fastqs : List String) (ref : String) : List TaskInstance :=
  chainStage "genotype_svtyper" ".lumpy.vcf" (lumpyStage fastqs ref)
    (fun d s => [d ++ "/" ++ s ++ ".sorted.bam", d ++ "/" ++ s ++ ".splitters.bam"])
    noAdd ".svtyper.vcf"

/-- The full pipeline of `make_pipeline`, in declaration order. -/
def makePipeline (fastqs : List String) (ref : String) : List TaskInstance :=
  fastqcStage fastqs ++
  indexReferenceBwaStage ref ++
  indexReferenceSamtoolsStage ref ++
  alignBwaStage fastqs ref ++
  sortAlignmentStage fastqs ref ++
  indexAlignmentStage fastqs ref ++
  bamtoolsStatsStage fastqs ref ++
  extractDiscordantStage fastqs ref ++
  extractSplitStage fastqs ref ++
  sortDiscordantsStage fastqs ref ++
  indexDiscordantsStage fastqs ref ++
  sortSplittersStage fastqs ref ++
  indexSplittersStage fastqs ref ++
  lumpyStage fastqs ref ++
  svtyperStage fastqs ref

/-- The `.follows(...)` declarations of `make_pipeline`: for each stage, the
stages that must fully complete before any of its instances may run,
independent of file-based dependencies. -/
def explicitPreds (stage : String) : List String :=
  if stage = "align_bwa" then ["index_reference_bwa", "index_reference_samtools"]
  else if stage = "structural_variants_lumpy" then ["sort_splitters", "sort_discordants"]
  else if stage = "genotype_svtyper" then
    ["align_bwa", "sort_splitters", "index_alignment", "index_splitters", "index_discordants"]
  else []

/-! ### Stage bodies (`stages.py`): shell-command construction -/

/-- A double-quote character, used by `align_bwa`'s read-group argument. -/
def dq : String := "\""

/-- A single-quote character (Python's string repr quoting). -/
def pq : String := String.singleton (Char.ofNat 39)

/-- Python's `str` of a list of strings, as interpolated by `str.format`
when a list value is passed to a `{...}` slot. -/
def pyListRepr (xs : List String) : String :=
  "[" ++ String.intercalate ", " (xs.map fun s => pq ++ s ++ pq) ++ "]"

/-- `Stages.align_bwa`: the job's ruffus input parameter is the pair of the
matched R1 path and the `add_inputs` list `[R2, reference]`; the stage body
unpacks it as `fastq_read1_in, fastq_read2_in = inputs`, so `fastq_read2_in`
is bound to the whole added list, which `str.format` renders with Python's
list syntax. -/
def align_bwa_command (cores read_group reference : String)
    (inputs : String × List String) (bam_out : String) : String :=
  "bwa mem -t " ++ cores ++ " -R " ++ dq ++ read_group ++ dq ++ " " ++ reference ++ " " ++
    inputs.1 ++ " " ++ pyListRepr inputs.2 ++ " | samtools view -S -b - > " ++ bam_out

/-- `Stages.sort_bam`: samtools sort is given the input bam and the output
*stem*; the `sorted_bam_out` parameter is not used in the command. -/
def sort_bam_command (bam_in sorted_bam_out sorted_bam_prefix : String) : String :=
  "samtools sort " ++ bam_in ++ " " ++ sorted_bam_prefix

/-- `Stages.index_bam`: samtools index is given only the input bam; the
`index_out` parameter is not used in the command. -/
def index_bam_command (bam_in index_out : String) : String :=
  "samtools index " ++ bam_in

/-- The memory limit computed by `Stages.sort_bam_sambamba` from the
configured integer `mem`. -/
def sambambaMemLimit (mem : Int) : Int := max (mem - 4) 1

/-- `Stages.sort_bam_sambamba`: the sambamba sort command with the clamped
memory limit. -/
def sort_bam_sambamba_command (cores tmp : String) (mem : Int)
    (bam_in sorted_bam_out : String) : String :=
  "sambamba sort --nthreads=" ++ cores ++ " --memory-limit=" ++ toString (sambambaMemLimit mem)
    ++ "GB --tmpdir=" ++ tmp ++ " --out=" ++ sorted_bam_out ++ " " ++ bam_in

/-! ### Membership characterizations for the stage builders -/

theorem mem_chainStage {nm tag : String} {ups : List TaskInstance}
    {ai ex : String → String → List String} {ot : String} {t : TaskInstance} :
    t ∈ chainStage nm tag ups ai ex ot ↔
      ∃ o d s, o ∈ stageOuts ups ∧ fmatch tag o = some (d, s) ∧
        t = ⟨nm, some s, o :: ai d s, ex d s, [d ++ "/" ++ s ++ ot]⟩ := by
  unfold chainStage
  rw [List.mem_filterMap]
  constructor
  · rintro ⟨o, ho, hf⟩
    rw [Option.map_eq_some'] at hf
    obtain ⟨ds, hds, ht⟩ := hf
    exact ⟨o, ds.1, ds.2, ho, hds, ht.symm⟩
  · rintro ⟨o, d, s, ho, hds, ht⟩
    refine ⟨o, ho, ?_⟩
    rw [hds]
    simp [ht]

theorem stage_of_chainStage {nm tag : String} {ups : List TaskInstance}
    {ai ex : String → String → List String} {ot : String} {t : TaskInstance}
    (h : t ∈ chainStage nm tag ups ai ex ot) : t.stage = nm := by
  obtain ⟨o, d, s, _, _, ht⟩ := mem_chainStage.mp h
  rw [ht]

theorem mem_fastqcStage {fastqs : List String} {t : TaskInstance} :
    t ∈ fastqcStage fastqs ↔
      ∃ f stem, f ∈ fastqs ∧ f = stem ++ ".fastq.gz" ∧
        t = ⟨"fastqc", none, [f], [], [stem ++ "_fastqc"]⟩ := by
  unfold fastqcStage
  rw [List.mem_filterMap]
  constructor
  · rintro ⟨f, hf, hm⟩
    rw [Option.map_eq_some'] at hm
    obtain ⟨stem, hstem, ht⟩ := hm
    exact ⟨f, stem, hf, sufMatch_eq_some.mp hstem, ht.symm⟩
  · rintro ⟨f, stem, hf, hfe, ht⟩
    refine ⟨f, hf, ?_⟩
    rw [sufMatch_eq_some.mpr hfe]
    simp [ht]

theorem mem_alignBwaStage {fastqs : List String} {ref : String} {t : TaskInstance} :
    t ∈ alignBwaStage fastqs ref ↔
      ∃ f d s, f ∈ fastqs ∧ fmatch "_R1.fastq.gz" f = some (d, s) ∧
        t = ⟨"align_bwa", some s, [f, d ++ "/" ++ s ++ "_R2.fastq.gz", ref], [s],
          [d ++ "/" ++ s ++ ".bam"]⟩ := by
  unfold alignBwaStage
  rw [List.mem_filterMap]
  constructor
  · rintro ⟨f, hf, hm⟩
    rw [Option.map_eq_some'] at hm
    obtain ⟨ds, hds, ht⟩ := hm
    exact ⟨f, ds.1, ds.2, hf, hds, ht.symm⟩
  · rintro ⟨f, d, s, hf, hds, ht⟩
    refine ⟨f, hf, ?_⟩
    rw [hds]
    simp [ht]

theorem mem_indexReferenceBwaStage {ref : String} {t : TaskInstance} :
    t ∈ indexReferenceBwaStage ref ↔
      ∃ stem, ref = stem ++ ".fa" ∧
        t = ⟨"index_reference_bwa", none, [ref], [], bwaIndexTags.map (stem ++ ·)⟩ := by
  unfold indexReferenceBwaStage
  constructor
  · intro h
    cases hm : sufMatch ".fa" ref with
    | none => rw [hm] at h; simp at h
    | some stem =>
      rw [hm] at h
      simp only [List.mem_singleton] at h
      exact ⟨stem, sufMatch_eq_some.mp hm, h⟩
  · rintro ⟨stem, hstem, ht⟩
    rw [sufMatch_eq_some.mpr hstem]
    simp [ht]

theorem mem_indexReferenceSamtoolsStage {ref : String} {t : TaskInstance} :
    t ∈ indexReferenceSamtoolsStage ref ↔
      ∃ stem, ref = stem ++ ".fa" ∧
        t = ⟨"index_reference_samtools", none, [ref], [], [stem ++ ".fa.fai"]⟩ := by
  unfold indexReferenceSamtoolsStage
  constructor
  · intro h
    cases hm : sufMatch ".fa" ref with
    | none => rw [hm] at h; simp at h
    | some stem =>
      rw [hm] at h
      simp only [List.mem_singleton] at h
      exact ⟨stem, sufMatch_eq_some.mp hm, h⟩
  · rintro ⟨stem, hstem, ht⟩
    rw [sufMatch_eq_some.mpr hstem]
    simp [ht]

theorem stage_of_fastqcStage {fastqs : List String} {t : TaskInstance}
    (h : t ∈ fastqcStage fastqs) : t.stage = "fastqc" := by
  obtain ⟨f, stem, _, _, htt⟩ := mem_fastqcStage.mp h
  rw [htt]

theorem stage_of_alignBwaStage {fastqs : List String} {ref : String} {t : TaskInstance}
    (h : t ∈ alignBwaStage fastqs ref) : t.stage = "align_bwa" := by
  obtain ⟨f, d, s, _, _, htt⟩ := mem_alignBwaStage.mp h
  rw [htt]

theorem stage_of_indexReferenceBwaStage {ref : String} {t : TaskInstance}
    (h : t ∈ indexReferenceBwaStage ref) : t.stage = "index_reference_bwa" := by
  obtain ⟨stem, _, htt⟩ := mem_indexReferenceBwaStage.mp h
  rw [htt]

theorem stage_of_indexReferenceSamtoolsStage {ref : String} {t : TaskInstance}
    (h : t ∈ indexReferenceSamtoolsStage ref) : t.stage = "index_reference_samtools" := by
  obtain ⟨stem, _, htt⟩ := mem_indexReferenceSamtoolsStage.mp h
  rw [htt]

theorem mem_makePipeline_iff {fastqs : List String} {ref : String} {t : TaskInstance} :
    t ∈ makePipeline fastqs ref ↔
      t ∈ fastqcStage fastqs ∨ t ∈ indexReferenceBwaStage ref ∨
      t ∈ indexReferenceSamtoolsStage ref ∨ t ∈ alignBwaStage fastqs ref ∨
      t ∈ sortAlignmentStage fastqs ref ∨ t ∈ indexAlignmentStage fastqs ref ∨
      t ∈ bamtoolsStatsStage fastqs ref ∨ t ∈ extractDiscordantStage fastqs ref ∨
      t ∈ extractSplitStage fastqs ref ∨ t ∈ sortDiscordantsStage fastqs ref ∨
      t ∈ indexDiscordantsStage fastqs ref ∨ t ∈ sortSplittersStage fastqs ref ∨
      t ∈ indexSplittersStage fastqs ref ∨ t ∈ lumpyStage fastqs ref ∨
      t ∈ svtyperStage fastqs ref := by
  simp [makePipeline, List.mem_append, or_assoc]

/-- String append is associative on the nose for our purposes. -/
theorem str_append_assoc (a b c : String) : a ++ b ++ c = a ++ (b ++ c) := by
  rw [String.ext_iff]
  simp [String.data_append]

/-! ### Claim theorems -/

/-- **C1.** With root files `data/S1_R1.fastq.gz`, `data/S1_R2.fastq.gz` and
reference `ref.fa`, the pipeline yields exactly one `align_bwa` instance
with captured sample `S1`, resolved inputs `[R1, R2, ref]` in order, extra
`S1` and output `[data/S1.bam]` — but the stage body does **not** consume
those three paths: ruffus hands the job `(R1, [R2, ref])` and the unpack
`fastq_read1_in, fastq_read2_in = inputs` binds the whole added-inputs
*list* to `fastq_read2_in`, so the command's second fastq slot receives the
Python list rendering `['data/S1_R2.fastq.gz', 'ref.fa']` instead of the R2
path. -/
theorem C1_align_scenario :
    (makePipeline ["data/S1_R1.fastq.gz", "data/S1_R2.fastq.gz"] "ref.fa").filter
        (fun t => t.stage == "align_bwa") =
      [⟨"align_bwa", some "S1", ["data/S1_R1.fastq.gz", "data/S1_R2.fastq.gz", "ref.fa"],
        ["S1"], ["data/S1.bam"]⟩] ∧
    align_bwa_command "1" "RG" "ref.fa"
        ("data/S1_R1.fastq.gz", ["data/S1_R2.fastq.gz", "ref.fa"]) "data/S1.bam" =
      "bwa mem -t 1 -R " ++ dq ++ "RG" ++ dq ++ " ref.fa data/S1_R1.fastq.gz [" ++ pq ++
        "data/S1_R2.fastq.gz" ++ pq ++ ", " ++ pq ++ "ref.fa" ++ pq ++
        "] | samtools view -S -b - > data/S1.bam" ∧
    align_bwa_command "1" "RG" "ref.fa"
        ("data/S1_R1.fastq.gz", ["data/S1_R2.fastq.gz", "ref.fa"]) "data/S1.bam" ≠
      "bwa mem -t 1 -R " ++ dq ++ "RG" ++ dq ++
        " ref.fa data/S1_R1.fastq.gz data/S1_R2.fastq.gz | samtools view -S -b - > data/S1.bam" :=
  ⟨by decide, by decide, by decide⟩

/-- **C10.** For every configured integer `mem`, `sort_bam_sambamba` passes
`max(mem - 4, 1)` gigabytes to sambamba, which is at least 1 GB, and is
exactly 1 GB whenever `mem ≤ 4`. -/
theorem C10_sambamba_memory (cores tmp : String) (mem : Int) (bam_in sorted_bam_out : String) :
    sort_bam_sambamba_command cores tmp mem bam_in sorted_bam_out =
      "sambamba sort --nthreads=" ++ cores ++ " --memory-limit=" ++ toString (max (mem - 4) 1)
        ++ "GB --tmpdir=" ++ tmp ++ " --out=" ++ sorted_bam_out ++ " " ++ bam_in ∧
    1 ≤ sambambaMemLimit mem ∧ (mem ≤ 4 → sambambaMemLimit mem = 1) := by
  refine ⟨rfl, le_max_right _ _, fun h => ?_⟩
  unfold sambambaMemLimit
  omega

/-- Closed instance of `C10_sambamba_memory` at `mem = 2`. -/
theorem C10_sambamba_memory_witness :
    sort_bam_sambamba_command "4" "tmp" 2 "in.bam" "out.bam" =
      "sambamba sort --nthreads=4 --memory-limit=" ++ toString (max ((2 : Int) - 4) 1)
        ++ "GB --tmpdir=tmp --out=out.bam in.bam" ∧
    (1 : Int) ≤ sambambaMemLimit 2 ∧ ((2 : Int) ≤ 4 → sambambaMemLimit 2 = 1) := by
  have h := C10_sambamba_memory "4" "tmp" 2 "in.bam" "out.bam"
  refine ⟨?_, h.2.1, h.2.2⟩
  rw [h.1]
  decide

/-- **C8.** Every `sort_discordants` / `sort_splitters` instance has a
single extra argument `pre` with `pre ++ ".bam"` equal to its declared
output, and `sort_bam` builds its command from the input and `pre` alone
(the declared-output parameter is ignored), so the file `samtools sort`
produces — `pre ++ ".bam"` by convention — coincides with the declared
output. -/
theorem C8_sort_prefix_convention (fastqs : List String) (ref : String) (t : TaskInstance)
    (ht : t ∈ makePipeline fastqs ref)
    (hst : t.stage = "sort_discordants" ∨ t.stage = "sort_splitters") :
    ∃ bam_in pre, t.inputs = [bam_in] ∧ t.extras = [pre] ∧ t.outputs = [pre ++ ".bam"] ∧
      (∀ out1 out2, sort_bam_command bam_in out1 pre = sort_bam_command bam_in out2 pre) ∧
      sort_bam_command bam_in (pre ++ ".bam") pre = "samtools sort " ++ bam_in ++ " " ++ pre := by
  rw [mem_makePipeline_iff] at ht
  rcases ht with h|h|h|h|h|h|h|h|h|h|h|h|h|h|h
  · rw [stage_of_fastqcStage h] at hst
    rcases hst with h'|h' <;> exact absurd h' (by decide)
  · rw [stage_of_indexReferenceBwaStage h] at hst
    rcases hst with h'|h' <;> exact absurd h' (by decide)
  · rw [stage_of_indexReferenceSamtoolsStage h] at hst
    rcases hst with h'|h' <;> exact absurd h' (by decide)
  · rw [stage_of_alignBwaStage h] at hst
    rcases hst with h'|h' <;> exact absurd h' (by decide)
  · rw [stage_of_chainStage h] at hst
    rcases hst with h'|h' <;> exact absurd h' (by decide)
  · rw [stage_of_chainStage h] at hst
    rcases hst with h'|h' <;> exact absurd h' (by decide)
  · rw [stage_of_chainStage h] at hst
    rcases hst with h'|h' <;> exact absurd h' (by decide)
  · rw [stage_of_chainStage h] at hst
    rcases hst with h'|h' <;> exact absurd h' (by decide)
  · rw [stage_of_chainStage h] at hst
    rcases hst with h'|h' <;> exact absurd h' (by decide)
  · obtain ⟨o, d, s, _, _, htt⟩ := mem_chainStage.mp h
    refine ⟨o, d ++ "/" ++ s ++ ".discordants", ?_, ?_, ?_, fun _ _ => rfl, rfl⟩
    · rw [htt]; rfl
    · rw [htt]
    · rw [htt]
      have hlit : (".discordants" : String) ++ ".bam" = ".discordants.bam" := by decide
      rw [str_append_assoc (d ++ "/" ++ s) ".discordants" ".bam", hlit]
  · rw [stage_of_chainStage h] at hst
    rcases hst with h'|h' <;> exact absurd h' (by decide)
  · obtain ⟨o, d, s, _, _, htt⟩ := mem_chainStage.mp h
    refine ⟨o, d ++ "/" ++ s ++ ".splitters", ?_, ?_, ?_, fun _ _ => rfl, rfl⟩
    · rw [htt]; rfl
    · rw [htt]
    · rw [htt]
      have hlit : (".splitters" : String) ++ ".bam" = ".splitters.bam" := by decide
      rw [str_append_assoc (d ++ "/" ++ s) ".splitters" ".bam", hlit]
  · rw [stage_of_chainStage h] at hst
    rcases hst with h'|h' <;> exact absurd h' (by decide)
  · rw [stage_of_chainStage h] at hst
    rcases hst with h'|h' <;> exact absurd h' (by decide)
  · rw [stage_of_chainStage h] at hst
    rcases hst with h'|h' <;> exact absurd h' (by decide)

/-- Closed instance of `C8_sort_prefix_convention` on the single-sample
scenario. -/
theorem C8_sort_prefix_convention_witness :
    (⟨"sort_discordants", some "S1", ["data/S1.discordants.unsorted.bam"],
        ["data/S1.discordants"], ["data/S1.discordants.bam"]⟩ : TaskInstance) ∈
      makePipeline ["data/S1_R1.fastq.gz"] "ref.fa" ∧
    ∃ bam_in pre,
      (⟨"sort_discordants", some "S1", ["data/S1.discordants.unsorted.bam"],
        ["data/S1.discordants"], ["data/S1.discordants.bam"]⟩ : TaskInstance).inputs = [bam_in] ∧
      (⟨"sort_discordants", some "S1", ["data/S1.discordants.unsorted.bam"],
        ["data/S1.discordants"], ["data/S1.discordants.bam"]⟩ : TaskInstance).extras = [pre] ∧
      (⟨"sort_discordants", some "S1", ["data/S1.discordants.unsorted.bam"],
        ["data/S1.discordants"], ["data/S1.discordants.bam"]⟩ : TaskInstance).outputs
        = [pre ++ ".bam"] ∧
      (∀ out1 out2, sort_bam_command bam_in out1 pre = sort_bam_command bam_in out2 pre) ∧
      sort_bam_command bam_in (pre ++ ".bam") pre = "samtools sort " ++ bam_in ++ " " ++ pre :=
  ⟨by decide,
    C8_sort_prefix_convention ["data/S1_R1.fastq.gz"] "ref.fa" _ (by decide) (Or.inl rfl)⟩

/-- **C9.** Every `index_alignment` / `index_discordants` / `index_splitters`
instance declares as output exactly its input bam with `.bai` appended, and
`index_bam` builds its command from the input alone (the output parameter is
ignored), matching samtools index's output convention. -/
theorem C9_index_bai_convention (fastqs : List String) (ref : String) (t : TaskInstance)
    (ht : t ∈ makePipeline fastqs ref)
    (hst : t.stage = "index_alignment" ∨ t.stage = "index_discordants" ∨
      t.stage = "index_splitters") :
    ∃ bam_in, t.inputs = [bam_in] ∧ t.outputs = [bam_in ++ ".bai"] ∧
      (∀ out1 out2, index_bam_command bam_in out1 = index_bam_command bam_in out2) ∧
      index_bam_command bam_in (bam_in ++ ".bai") = "samtools index " ++ bam_in := by
  rw [mem_makePipeline_iff] at ht
  rcases ht with h|h|h|h|h|h|h|h|h|h|h|h|h|h|h
  · rw [stage_of_fastqcStage h] at hst
    rcases hst with h'|h'|h' <;> exact absurd h' (by decide)
  · rw [stage_of_indexReferenceBwaStage h] at hst
    rcases hst with h'|h'|h' <;> exact absurd h' (by decide)
  · rw [stage_of_indexReferenceSamtoolsStage h] at hst
    rcases hst with h'|h'|h' <;> exact absurd h' (by decide)
  · rw [stage_of_alignBwaStage h] at hst
    rcases hst with h'|h'|h' <;> exact absurd h' (by decide)
  · rw [stage_of_chainStage h] at hst
    rcases hst with h'|h'|h' <;> exact absurd h' (by decide)
  · obtain ⟨o, d, s, _, hm, htt⟩ := mem_chainStage.mp h
    have ho := (fmatch_eq_some hm).1
    refine ⟨o, ?_, ?_, fun _ _ => rfl, rfl⟩
    · rw [htt]; rfl
    · rw [htt, ho]
      have hlit : (".sorted.bam" : String) ++ ".bai" = ".sorted.bam.bai" := by decide
      rw [str_append_assoc (d ++ "/" ++ s) ".sorted.bam" ".bai", hlit]
  · rw [stage_of_chainStage h] at hst
    rcases hst with h'|h'|h' <;> exact absurd h' (by decide)
  · rw [stage_of_chainStage h] at hst
    rcases hst with h'|h'|h' <;> exact absurd h' (by decide)
  · rw [stage_of_chainStage h] at hst
    rcases hst with h'|h'|h' <;> exact absurd h' (by decide)
  · rw [stage_of_chainStage h] at hst
    rcases hst with h'|h'|h' <;> exact absurd h' (by decide)
  · obtain ⟨o, d, s, _, hm, htt⟩ := mem_chainStage.mp h
    have ho := (fmatch_eq_some hm).1
    refine ⟨o, ?_, ?_, fun _ _ => rfl, rfl⟩
    · rw [htt]; rfl
    · rw [htt, ho]
      have hlit : (".discordants.bam" : String) ++ ".bai" = ".discordants.bam.bai" := by decide
      rw [str_append_assoc (d ++ "/" ++ s) ".discordants.bam" ".bai", hlit]
  · rw [stage_of_chainStage h] at hst
    rcases hst with h'|h'|h' <;> exact absurd h' (by decide)
  · obtain ⟨o, d, s, _, hm, htt⟩ := mem_chainStage.mp h
    have ho := (fmatch_eq_some hm).1
    refine ⟨o, ?_, ?_, fun _ _ => rfl, rfl⟩
    · rw [htt]; rfl
    · rw [htt, ho]
      have hlit : (".splitters.bam" : String) ++ ".bai" = ".splitters.bam.bai" := by decide
      rw [str_append_assoc (d ++ "/" ++ s) ".splitters.bam" ".bai", hlit]
  · rw [stage_of_chainStage h] at hst
    rcases hst with h'|h'|h' <;> exact absurd h' (by decide)
  · rw [stage_of_chainStage h] at hst
    rcases hst with h'|h'|h' <;> exact absurd h' (by decide)

/-- Closed instance of `C9_index_bai_convention` on the single-sample
scenario. -/
theorem C9_index_bai_convention_witness :
    (⟨"index_alignment", some "S1", ["data/S1.sorted.bam"], [],
        ["data/S1.sorted.bam.bai"]⟩ : TaskInstance) ∈
      makePipeline ["data/S1_R1.fastq.gz"] "ref.fa" ∧
    ∃ bam_in,
      (⟨"index_alignment", some "S1", ["data/S1.sorted.bam"], [],
        ["data/S1.sorted.bam.bai"]⟩ : TaskInstance).inputs = [bam_in] ∧
      (⟨"index_alignment", some "S1", ["data/S1.sorted.bam"], [],
        ["data/S1.sorted.bam.bai"]⟩ : TaskInstance).outputs = [bam_in ++ ".bai"] ∧
      (∀ out1 out2, index_bam_command bam_in out1 = index_bam_command bam_in out2) ∧
      index_bam_command bam_in (bam_in ++ ".bai") = "samtools index " ++ bam_in :=
  ⟨by decide,
    C9_index_bai_convention ["data/S1_R1.fastq.gz"] "ref.fa" _ (by decide) (Or.inl rfl)⟩

/-- **C4.** Substitute-then-match round trip: the align output
`d ++ "/" ++ s ++ ".bam"` is matched by the downstream formatter
`.+/(?P<sample>[a-zA-Z0-9]+).bam` (used by `sort_alignment`,
`bamtools_stats`, `extract_discordant_alignments` and
`extract_split_read_alignments`) and recovers `sample = s`; and an R2 extra
input produced by substituting `{path[0]}/{sample[0]}_R2.fastq.gz` from a
primary R1 match carries the same captured sample as the R1 match. -/
theorem C4_capture_roundtrip (d s : String) (hd : d ≠ "") (hdn : ∀ c ∈ d.data, c ≠ '\n')
    (hs : s ≠ "") (hsa : ∀ c ∈ s.data, isAlnum c = true) :
    fmatch ".bam" (d ++ "/" ++ s ++ ".bam") = some (d, s) ∧
    (∀ f d' s', fmatch "_R1.fastq.gz" f = some (d', s') →
      fmatch "_R2.fastq.gz" (d' ++ "/" ++ s' ++ "_R2.fastq.gz") = some (d', s')) := by
  constructor
  · exact fmatch_mk hd hdn hs hsa
  · intro f d' s' hm
    obtain ⟨_, hs', hsa', hd', hdn'⟩ := fmatch_eq_some hm
    exact fmatch_mk hd' hdn' hs' hsa'

/-- Closed instance of `C4_capture_roundtrip` at `d = "data"`, `s = "S1"`. -/
theorem C4_capture_roundtrip_witness :
    fmatch ".bam" ("data" ++ "/" ++ "S1" ++ ".bam") = some ("data", "S1") :=
  (C4_capture_roundtrip "data" "S1" (by decide) (by decide) (by decide) (by decide)).1

/-- The stage declarations of `make_pipeline` in source order, each with the
earlier stages it references (its `output_from(...)` input sources and its
`.follows(...)` targets). -/
def stageDecls : List (String × List String) :=
  [("fastqc", []),
   ("index_reference_bwa", []),
   ("index_reference_samtools", []),
   ("align_bwa", ["index_reference_bwa", "index_reference_samtools"]),
   ("sort_alignment", ["align_bwa"]),
   ("index_alignment", ["sort_alignment"]),
   ("bamtools_stats", ["align_bwa"]),
   ("extract_discordant_alignments", ["align_bwa"]),
   ("extract_split_read_alignments", ["align_bwa"]),
   ("sort_discordants", ["extract_discordant_alignments"]),
   ("index_discordants", ["sort_discordants"]),
   ("sort_splitters", ["extract_split_read_alignments"]),
   ("index_splitters", ["sort_splitters"]),
   ("structural_variants_lumpy", ["align_bwa", "sort_splitters", "sort_discordants"]),
   ("genotype_svtyper",
     ["structural_variants_lumpy", "align_bwa", "sort_splitters", "index_alignment",
      "index_splitters", "index_discordants"])]

/-- Modelled from the spec: a stage referencing a not-yet-registered stage is
a configuration error, so the builder validates that every referenced stage
was declared earlier. -/
def declsOk : List String → List (String × List String) → Bool
  | _, [] => true
  | seen, (nm, refs) :: rest => refs.all (fun r => seen.contains r) && declsOk (nm :: seen) rest

/-- Modelled from the spec: pipeline construction fails with a configuration
error when a stage references an undeclared stage, and otherwise returns the
built pipeline. -/
def makePipelineChecked (fastqs : List String) (ref : String) : Option (List TaskInstance) :=
  if declsOk [] stageDecls then some (makePipeline fastqs ref) else none

/-- **C6.** Every stage reference in `make_pipeline` (each `output_from`
source and each `.follows` target) names a stage declared earlier, so for
every root file set and reference file the checked construction succeeds. -/
theorem C6_declaration_order (fastqs : List String) (ref : String) :
    declsOk [] stageDecls = true ∧
    makePipelineChecked fastqs ref = some (makePipeline fastqs ref) := by
  refine ⟨by decide, ?_⟩
  unfold makePipelineChecked
  rw [if_pos (by decide)]

/-! ### Output shapes and disjointness toolkit -/

/-- `hasTail t p`: the list `p` ends with the literal `t`. -/
def hasTail (t p : List Char) : Bool := (peelFront t.reverse p.reverse).isSome

theorem hasTail_iff {t p : List Char} : hasTail t p = true ↔ ∃ x, p = x ++ t := by
  unfold hasTail
  rw [Option.isSome_iff_exists]
  constructor
  · rintro ⟨r, hr⟩
    refine ⟨r.reverse, ?_⟩
    have := peelFront_eq_some.mp hr
    have h2 := congrArg List.reverse this
    simpa using h2
  · rintro ⟨x, hx⟩
    refine ⟨x.reverse, peelFront_eq_some.mpr ?_⟩
    rw [hx]
    simp

theorem tag_comparable {x y t1 t2 : List Char} (e : x ++ t1 = y ++ t2) :
    (∃ m, t1 = m ++ t2) ∨ (∃ m, t2 = m ++ t1) := by
  rcases List.append_eq_append_iff.mp e with ⟨a, _, h⟩ | ⟨c, _, h⟩
  · exact Or.inl ⟨a, h⟩
  · exact Or.inr ⟨c, h⟩

/-- Two concatenations with suffix-incomparable literal tails are distinct. -/
theorem ne_of_tag_clash {x y t1 t2 : List Char}
    (h1 : hasTail t2 t1 = false) (h2 : hasTail t1 t2 = false) : x ++ t1 ≠ y ++ t2 := by
  intro e
  rcases tag_comparable e with ⟨m, hm⟩ | ⟨m, hm⟩
  · rw [show (hasTail t2 t1 = true) from hasTail_iff.mpr ⟨m, hm⟩] at h1
    exact absurd h1 (by simp)
  · rw [show (hasTail t1 t2 = true) from hasTail_iff.mpr ⟨m, hm⟩] at h2
    exact absurd h2 (by simp)

theorem firstSlash_eq {a b r t : List Char} (ha : ∀ c ∈ a, c ≠ '/') (hb : ∀ c ∈ b, c ≠ '/')
    (e : a ++ '/' :: r = b ++ '/' :: t) : a = b ∧ r = t := by
  induction a generalizing b with
  | nil =>
    cases b with
    | nil => simpa using e
    | cons c bs =>
      simp only [List.nil_append, List.cons_append, List.cons.injEq] at e
      exact absurd e.1.symm (hb c (by simp))
  | cons c as ih =>
    cases b with
    | nil =>
      simp only [List.cons_append, List.nil_append, List.cons.injEq] at e
      exact absurd e.1 (ha c (by simp))
    | cons c' bs =>
      simp only [List.cons_append, List.cons.injEq] at e
      obtain ⟨hc, e'⟩ := e
      obtain ⟨h1, h2⟩ := ih (fun x hx => ha x (by simp [hx])) (fun x hx => hb x (by simp [hx])) e'
      exact ⟨by rw [hc, h1], h2⟩

/-- Splitting a list at its last slash: if the parts after the slash are
slash-free, the decompositions agree. -/
theorem lastSlash_split {d1 d2 x y : List Char} (hx : ∀ c ∈ x, c ≠ '/')
    (hy : ∀ c ∈ y, c ≠ '/') (e : d1 ++ '/' :: x = d2 ++ '/' :: y) : d1 = d2 ∧ x = y := by
  have e' : x.reverse ++ '/' :: d1.reverse = y.reverse ++ '/' :: d2.reverse := by
    have := congrArg List.reverse e
    simpa [List.reverse_append, List.append_assoc] using this
  obtain ⟨h1, h2⟩ := firstSlash_eq (fun c hc => hx c (List.mem_reverse.mp hc))
    (fun c hc => hy c (List.mem_reverse.mp hc)) e'
  constructor
  · have := congrArg List.reverse h2
    simpa using this
  · have := congrArg List.reverse h1
    simpa using this

/-- A maximal alphanumeric block followed by a non-alphanumeric character
determines the split. -/
theorem alnum_block_eq {s1 s2 : List Char} {c1 c2 : Char} {r1 r2 : List Char}
    (ha1 : ∀ c ∈ s1, isAlnum c = true) (ha2 : ∀ c ∈ s2, isAlnum c = true)
    (hh1 : isAlnum c1 = false) (hh2 : isAlnum c2 = false)
    (e : s1 ++ c1 :: r1 = s2 ++ c2 :: r2) : s1 = s2 ∧ c1 :: r1 = c2 :: r2 := by
  induction s1 generalizing s2 with
  | nil =>
    cases s2 with
    | nil => simpa using e
    | cons c bs =>
      simp only [List.nil_append, List.cons_append, List.cons.injEq] at e
      rw [e.1] at hh1
      rw [ha2 c (by simp)] at hh1
      exact absurd hh1 (by simp)
  | cons c as ih =>
    cases s2 with
    | nil =>
      simp only [List.cons_append, List.nil_append, List.cons.injEq] at e
      rw [← e.1] at hh2
      rw [ha1 c (by simp)] at hh2
      exact absurd hh2 (by simp)
    | cons c' bs =>
      simp only [List.cons_append, List.cons.injEq] at e
      obtain ⟨hc, e'⟩ := e
      obtain ⟨h1, h2⟩ := ih (fun x hx => ha1 x (by simp [hx])) (fun x hx => ha2 x (by simp [hx])) e'
      exact ⟨by rw [hc, h1], h2⟩

/-- Well-formedness of a stage's literal output tag: nonempty, beginning
with a non-alphanumeric character (`.` or `_`), and slash-free. -/
def goodTag (L : String) : Bool :=
  match L.data with
  | [] => false
  | c :: _ => !isAlnum c && L.data.all (fun x => x ≠ '/')

/-- Output shape of the formatter-chained stages: a directory, a slash, a
nonempty alphanumeric sample, then the stage's literal tag. -/
def AOut (L : String) (o : String) : Prop :=
  ∃ d s : String, s ≠ "" ∧ (∀ c ∈ s.data, isAlnum c = true) ∧ o = d ++ "/" ++ s ++ L

theorem data_of_build (d s L : String) :
    (d ++ "/" ++ s ++ L).data = d.data ++ '/' :: (s.data ++ L.data) := by
  simp [String.data_append]

/-- Two formatter-stage outputs with well-formed tags coincide only when the
tags, directories and samples all coincide. -/
theorem AOut_parts_eq {L1 L2 d1 d2 s1 s2 : String}
    (g1 : goodTag L1 = true) (g2 : goodTag L2 = true)
    (hs1 : ∀ c ∈ s1.data, isAlnum c = true) (hs2 : ∀ c ∈ s2.data, isAlnum c = true)
    (e : d1 ++ "/" ++ s1 ++ L1 = d2 ++ "/" ++ s2 ++ L2) :
    d1 = d2 ∧ s1 = s2 ∧ L1 = L2 := by
  have hslash : isAlnum '/' = false := by decide
  have ed : d1.data ++ '/' :: (s1.data ++ L1.data) = d2.data ++ '/' :: (s2.data ++ L2.data) := by
    rw [← data_of_build, ← data_of_build]
    exact String.ext_iff.mp e
  have hx : ∀ c ∈ s1.data ++ L1.data, c ≠ '/' := by
    intro c hc
    rcases List.mem_append.mp hc with h | h
    · intro hcc
      have hcal := hs1 c h
      rw [hcc] at hcal
      rw [hcal] at hslash
      exact absurd hslash (by simp)
    · unfold goodTag at g1
      cases hL : L1.data with
      | nil => rw [hL] at g1; exact absurd g1 (by simp)
      | cons a as =>
        rw [hL] at g1
        have := (Bool.and_eq_true _ _ |>.mp g1).2
        rw [← hL] at this
        have := List.all_eq_true.mp this c h
        simpa using this
  have hy : ∀ c ∈ s2.data ++ L2.data, c ≠ '/' := by
    intro c hc
    rcases List.mem_append.mp hc with h | h
    · intro hcc
      have hcal := hs2 c h
      rw [hcc] at hcal
      rw [hcal] at hslash
      exact absurd hslash (by simp)
    · unfold goodTag at g2
      cases hL : L2.data with
      | nil => rw [hL] at g2; exact absurd g2 (by simp)
      | cons a as =>
        rw [hL] at g2
        have := (Bool.and_eq_true _ _ |>.mp g2).2
        rw [← hL] at this
        have := List.all_eq_true.mp this c h
        simpa using this
  obtain ⟨hd, hrest⟩ := lastSlash_split hx hy ed
  cases hL1 : L1.data with
  | nil => unfold goodTag at g1; rw [hL1] at g1; exact absurd g1 (by simp)
  | cons a1 r1 =>
    cases hL2 : L2.data with
    | nil => unfold goodTag at g2; rw [hL2] at g2; exact absurd g2 (by simp)
    | cons a2 r2 =>
      have hh1 : isAlnum a1 = false := by
        unfold goodTag at g1; rw [hL1] at g1
        have := (Bool.and_eq_true _ _ |>.mp g1).1
        simpa using this
      have hh2 : isAlnum a2 = false := by
        unfold goodTag at g2; rw [hL2] at g2
        have := (Bool.and_eq_true _ _ |>.mp g2).1
        simpa using this
      rw [hL1, hL2] at hrest
      obtain ⟨hseq, hLeq⟩ := alnum_block_eq hs1 hs2 hh1 hh2 hrest
      refine ⟨String.ext_iff.mpr hd, String.ext_iff.mpr hseq, String.ext_iff.mpr ?_⟩
      rw [hL1, hL2]
      exact hLeq

/-- Outputs of two formatter-chained stages with distinct well-formed tags
are never equal. -/
theorem AOut_ne {L1 L2 o1 o2 : String} (g1 : goodTag L1 = true) (g2 : goodTag L2 = true)
    (hne : L1 ≠ L2) (h1 : AOut L1 o1) (h2 : AOut L2 o2) : o1 ≠ o2 := by
  obtain ⟨d1, s1, _, hs1, ho1⟩ := h1
  obtain ⟨d2, s2, _, hs2, ho2⟩ := h2
  intro e
  rw [ho1, ho2] at e
  exact hne (AOut_parts_eq g1 g2 hs1 hs2 e).2.2

/-- The output paths produced by a formatter-chained stage from a list of
candidate input paths. -/
def buildOuts (tag ot : String) (src : List String) : List String :=
  src.filterMap fun o => (fmatch tag o).map fun ds => ds.1 ++ "/" ++ ds.2 ++ ot

theorem stageOuts_chainStage {nm tag : String} {ups : List TaskInstance}
    {ai ex : String → String → List String} {ot : String} :
    stageOuts (chainStage nm tag ups ai ex ot) = buildOuts tag ot (stageOuts ups) := by
  unfold chainStage buildOuts
  generalize stageOuts ups = src
  induction src with
  | nil => rfl
  | cons o rest ih =>
    cases hm : fmatch tag o with
    | none => simp [stageOuts, List.filterMap_cons, hm] at ih ⊢; exact ih
    | some ds => simp [stageOuts, List.filterMap_cons, hm] at ih ⊢; exact ih

theorem stageOuts_alignBwaStage {fastqs : List String} {ref : String} :
    stageOuts (alignBwaStage fastqs ref) = buildOuts "_R1.fastq.gz" ".bam" fastqs := by
  unfold alignBwaStage buildOuts
  induction fastqs with
  | nil => rfl
  | cons f rest ih =>
    cases hm : fmatch "_R1.fastq.gz" f with
    | none => simp [stageOuts, List.filterMap_cons, hm] at ih ⊢; exact ih
    | some ds => simp [stageOuts, List.filterMap_cons, hm] at ih ⊢; exact ih

theorem mem_buildOuts {tag ot : String} {src : List String} {o : String}
    (h : o ∈ buildOuts tag ot src) : AOut ot o := by
  unfold buildOuts at h
  rw [List.mem_filterMap] at h
  obtain ⟨p, _, hp⟩ := h
  rw [Option.map_eq_some'] at hp
  obtain ⟨ds, hds, ho⟩ := hp
  obtain ⟨_, hs, hsa, _, _⟩ := fmatch_eq_some (d := ds.1) (s := ds.2) (by rw [hds])
  exact ⟨ds.1, ds.2, hs, hsa, ho.symm⟩

theorem buildOuts_nodup {tag ot : String} {src : List String}
    (hot : goodTag ot = true) (hsrc : src.Nodup) : (buildOuts tag ot src).Nodup := by
  refine List.Nodup.filterMap ?_ hsrc
  intro a a' b hb hb'
  rw [Option.mem_def] at hb hb'
  rw [Option.map_eq_some'] at hb hb'
  obtain ⟨ds, hds, hbo⟩ := hb
  obtain ⟨ds', hds', hbo'⟩ := hb'
  obtain ⟨ha, _, hsa, _, _⟩ := fmatch_eq_some (d := ds.1) (s := ds.2) (by rw [hds])
  obtain ⟨ha', _, hsa', _, _⟩ := fmatch_eq_some (d := ds'.1) (s := ds'.2) (by rw [hds'])
  have he : ds.1 ++ "/" ++ ds.2 ++ ot = ds'.1 ++ "/" ++ ds'.2 ++ ot := by rw [hbo, ← hbo']
  obtain ⟨hd, hs, _⟩ := AOut_parts_eq hot hot hsa hsa' he
  rw [ha, ha', hd, hs]

/-- Plain-tail output shape (for the `suffix(...)` stages): some stem
followed by one of the block's literal tags. -/
def TagOut (tags : List String) (o : String) : Prop :=
  ∃ t ∈ tags, ∃ x : String, o = x ++ t

theorem AOut_TagOut {L o : String} (h : AOut L o) : TagOut [L] o := by
  obtain ⟨d, s, _, _, ho⟩ := h
  exact ⟨L, by simp, d ++ "/" ++ s, ho⟩

/-- Cross-block disjointness from pairwise suffix-incomparable tags. -/
theorem disjoint_of_tags {outs1 outs2 : List String} {tags1 tags2 : List String}
    (h1 : ∀ o ∈ outs1, TagOut tags1 o) (h2 : ∀ o ∈ outs2, TagOut tags2 o)
    (hcross : ∀ t1 ∈ tags1, ∀ t2 ∈ tags2,
      hasTail t1.data t2.data = false ∧ hasTail t2.data t1.data = false) :
    outs1.Disjoint outs2 := by
  intro o ho1 ho2
  obtain ⟨t1, ht1, x, hx⟩ := h1 o ho1
  obtain ⟨t2, ht2, y, hy⟩ := h2 o ho2
  obtain ⟨hc1, hc2⟩ := hcross t1 ht1 t2 ht2
  refine ne_of_tag_clash (x := x.data) (y := y.data) hc2 hc1 ?_
  rw [← String.data_append, ← String.data_append, ← hx, ← hy]

/-- Cross-block disjointness of two formatter-chained stages with distinct
well-formed tags. -/
theorem disjoint_of_AOut {outs1 outs2 : List String} {L1 L2 : String}
    (h1 : ∀ o ∈ outs1, AOut L1 o) (h2 : ∀ o ∈ outs2, AOut L2 o)
    (g1 : goodTag L1 = true) (g2 : goodTag L2 = true) (hne : L1 ≠ L2) :
    outs1.Disjoint outs2 := by
  intro o ho1 ho2
  exact AOut_ne g1 g2 hne (h1 o ho1) (h2 o ho2) rfl

theorem str_append_right_inj {t a b : String} (h : a ++ t = b ++ t) : a = b := by
  rw [String.ext_iff] at h ⊢
  rw [String.data_append, String.data_append] at h
  exact List.append_cancel_right h

theorem str_append_left_inj {stem a b : String} (h : stem ++ a = stem ++ b) : a = b := by
  rw [String.ext_iff] at h ⊢
  rw [String.data_append, String.data_append] at h
  exact List.append_cancel_left h

theorem stageOuts_append (A B : List TaskInstance) :
    stageOuts (A ++ B) = stageOuts A ++ stageOuts B := by
  unfold stageOuts
  simp

theorem stageOuts_fastqcStage {fastqs : List String} :
    stageOuts (fastqcStage fastqs) =
      fastqs.filterMap fun f => (sufMatch ".fastq.gz" f).map (· ++ "_fastqc") := by
  unfold fastqcStage
  induction fastqs with
  | nil => rfl
  | cons f rest ih =>
    cases hm : sufMatch ".fastq.gz" f with
    | none => simp [stageOuts, List.filterMap_cons, hm] at ih ⊢; exact ih
    | some stem => simp [stageOuts, List.filterMap_cons, hm] at ih ⊢; exact ih

theorem fastqcOuts_shape {fastqs : List String} :
    ∀ o ∈ stageOuts (fastqcStage fastqs), TagOut ["_fastqc"] o := by
  intro o ho
  rw [stageOuts_fastqcStage, List.mem_filterMap] at ho
  obtain ⟨f, _, hf⟩ := ho
  rw [Option.map_eq_some'] at hf
  obtain ⟨stem, _, ho⟩ := hf
  exact ⟨"_fastqc", by simp, stem, ho.symm⟩

theorem fastqcOuts_nodup {fastqs : List String} (h : fastqs.Nodup) :
    (stageOuts (fastqcStage fastqs)).Nodup := by
  rw [stageOuts_fastqcStage]
  refine List.Nodup.filterMap ?_ h
  intro a a' b hb hb'
  rw [Option.mem_def, Option.map_eq_some'] at hb hb'
  obtain ⟨stem, hstem, hbo⟩ := hb
  obtain ⟨stem', hstem', hbo'⟩ := hb'
  have hstemEq : stem = stem' := str_append_right_inj (t := "_fastqc") (by rw [hbo, ← hbo'])
  rw [sufMatch_eq_some.mp hstem, sufMatch_eq_some.mp hstem', hstemEq]

theorem stageOuts_indexReferenceBwaStage {ref : String} :
    stageOuts (indexReferenceBwaStage ref) =
      match sufMatch ".fa" ref with
      | some stem => bwaIndexTags.map (stem ++ ·)
      | none => [] := by
  unfold indexReferenceBwaStage
  cases sufMatch ".fa" ref <;> simp [stageOuts]

theorem idxBwaOuts_shape {ref : String} :
    ∀ o ∈ stageOuts (indexReferenceBwaStage ref), TagOut bwaIndexTags o := by
  intro o ho
  rw [stageOuts_indexReferenceBwaStage] at ho
  cases hm : sufMatch ".fa" ref with
  | none => rw [hm] at ho; exact absurd ho (by simp)
  | some stem =>
    rw [hm] at ho
    rw [List.mem_map] at ho
    obtain ⟨t, ht, hot⟩ := ho
    exact ⟨t, ht, stem, hot.symm⟩

theorem idxBwaOuts_nodup {ref : String} : (stageOuts (indexReferenceBwaStage ref)).Nodup := by
  rw [stageOuts_indexReferenceBwaStage]
  cases hm : sufMatch ".fa" ref with
  | none => simp
  | some stem =>
    refine List.Nodup.map ?_ (by decide)
    intro a b hab
    exact str_append_left_inj hab

theorem stageOuts_indexReferenceSamtoolsStage {ref : String} :
    stageOuts (indexReferenceSamtoolsStage ref) =
      match sufMatch ".fa" ref with
      | some stem => [stem ++ ".fa.fai"]
      | none => [] := by
  unfold indexReferenceSamtoolsStage
  cases sufMatch ".fa" ref <;> simp [stageOuts]

theorem idxSamOuts_shape {ref : String} :
    ∀ o ∈ stageOuts (indexReferenceSamtoolsStage ref), TagOut [".fa.fai"] o := by
  intro o ho
  rw [stageOuts_indexReferenceSamtoolsStage] at ho
  cases hm : sufMatch ".fa" ref with
  | none => rw [hm] at ho; exact absurd ho (by simp)
  | some stem =>
    rw [hm] at ho
    rw [List.mem_singleton] at ho
    exact ⟨".fa.fai", by simp, stem, ho⟩

theorem idxSamOuts_nodup {ref : String} :
    (stageOuts (indexReferenceSamtoolsStage ref)).Nodup := by
  rw [stageOuts_indexReferenceSamtoolsStage]
  cases sufMatch ".fa" ref <;> simp

theorem outs_sa {fastqs : List String} {ref : String} :
    stageOuts (sortAlignmentStage fastqs ref) =
      buildOuts ".bam" ".sorted.bam" (stageOuts (alignBwaStage fastqs ref)) := by
  unfold sortAlignmentStage; exact stageOuts_chainStage

theorem outs_ia {fastqs : List String} {ref : String} :
    stageOuts (indexAlignmentStage fastqs ref) =
      buildOuts ".sorted.bam" ".sorted.bam.bai" (stageOuts (sortAlignmentStage fastqs ref)) := by
  unfold indexAlignmentStage; exact stageOuts_chainStage

theorem outs_bs {fastqs : List String} {ref : String} :
    stageOuts (bamtoolsStatsStage fastqs ref) =
      buildOuts ".bam" ".stats.txt" (stageOuts (alignBwaStage fastqs ref)) := by
  unfold bamtoolsStatsStage; exact stageOuts_chainStage

theorem outs_ed {fastqs : List String} {ref : String} :
    stageOuts (extractDiscordantStage fastqs ref) =
      buildOuts ".bam" ".discordants.unsorted.bam" (stageOuts (alignBwaStage fastqs ref)) := by
  unfold extractDiscordantStage; exact stageOuts_chainStage

theorem outs_es {fastqs : List String} {ref : String} :
    stageOuts (extractSplitStage fastqs ref) =
      buildOuts ".bam" ".splitters.unsorted.bam" (stageOuts (alignBwaStage fastqs ref)) := by
  unfold extractSplitStage; exact stageOuts_chainStage

theorem outs_sd {fastqs : List String} {ref : String} :
    stageOuts (sortDiscordantsStage fastqs ref) =
      buildOuts ".discordants.unsorted.bam" ".discordants.bam"
        (stageOuts (extractDiscordantStage fastqs ref)) := by
  unfold sortDiscordantsStage; exact stageOuts_chainStage

theorem outs_idd {fastqs : List String} {ref : String} :
    stageOuts (indexDiscordantsStage fastqs ref) =
      buildOuts ".discordants.bam" ".discordants.bam.bai"
        (stageOuts (sortDiscordantsStage fastqs ref)) := by
  unfold indexDiscordantsStage; exact stageOuts_chainStage

theorem outs_ss {fastqs : List String} {ref : String} :
    stageOuts (sortSplittersStage fastqs ref) =
      buildOuts ".splitters.unsorted.bam" ".splitters.bam"
        (stageOuts (extractSplitStage fastqs ref)) := by
  unfold sortSplittersStage; exact stageOuts_chainStage

theorem outs_ids {fastqs : List String} {ref : String} :
    stageOuts (indexSplittersStage fastqs ref) =
      buildOuts ".splitters.bam" ".splitters.bam.bai"
        (stageOuts (sortSplittersStage fastqs ref)) := by
  unfold indexSplittersStage; exact stageOuts_chainStage

theorem outs_lu {fastqs : List String} {ref : String} :
    stageOuts (lumpyStage fastqs ref) =
      buildOuts ".bam" ".lumpy.vcf" (stageOuts (alignBwaStage fastqs ref)) := by
  unfold lumpyStage; exact stageOuts_chainStage

theorem outs_sv {fastqs : List String} {ref : String} :
    stageOuts (svtyperStage fastqs ref) =
      buildOuts ".lumpy.vcf" ".svtyper.vcf" (stageOuts (lumpyStage fastqs ref)) := by
  unfold svtyperStage; exact stageOuts_chainStage

theorem alOuts_nodup {fastqs : List String} {ref : String} (h : fastqs.Nodup) :
    (stageOuts (alignBwaStage fastqs ref)).Nodup := by
  rw [stageOuts_alignBwaStage]
  exact buildOuts_nodup (by decide) h

/-- The twelve formatter-chained blocks of the pipeline, each paired with
its literal output tag, in declaration order. -/
def aBlocks (fastqs : List String) (ref : String) : List (String × List String) :=
  [(".bam", stageOuts (alignBwaStage fastqs ref)),
   (".sorted.bam", stageOuts (sortAlignmentStage fastqs ref)),
   (".sorted.bam.bai", stageOuts (indexAlignmentStage fastqs ref)),
   (".stats.txt", stageOuts (bamtoolsStatsStage fastqs ref)),
   (".discordants.unsorted.bam", stageOuts (extractDiscordantStage fastqs ref)),
   (".splitters.unsorted.bam", stageOuts (extractSplitStage fastqs ref)),
   (".discordants.bam", stageOuts (sortDiscordantsStage fastqs ref)),
   (".discordants.bam.bai", stageOuts (indexDiscordantsStage fastqs ref)),
   (".splitters.bam", stageOuts (sortSplittersStage fastqs ref)),
   (".splitters.bam.bai", stageOuts (indexSplittersStage fastqs ref)),
   (".lumpy.vcf", stageOuts (lumpyStage fastqs ref)),
   (".svtyper.vcf", stageOuts (svtyperStage fastqs ref))]

/-- The literal output tags of the chained blocks. -/
def aTags : List String :=
  [".bam", ".sorted.bam", ".sorted.bam.bai", ".stats.txt", ".discordants.unsorted.bam",
   ".splitters.unsorted.bam", ".discordants.bam", ".discordants.bam.bai", ".splitters.bam",
   ".splitters.bam.bai", ".lumpy.vcf", ".svtyper.vcf"]

theorem aBlocks_tags {fastqs : List String} {ref : String} :
    (aBlocks fastqs ref).map Prod.fst = aTags := rfl

theorem aBlocks_shape {fastqs : List String} {ref : String} :
    ∀ b ∈ aBlocks fastqs ref, ∀ o ∈ b.2, AOut b.1 o := by
  intro b hb
  simp only [aBlocks, List.mem_cons, List.not_mem_nil, or_false] at hb
  rcases hb with rfl|rfl|rfl|rfl|rfl|rfl|rfl|rfl|rfl|rfl|rfl|rfl <;>
    intro o ho
  · rw [stageOuts_alignBwaStage] at ho; exact mem_buildOuts ho
  · rw [outs_sa] at ho; exact mem_buildOuts ho
  · rw [outs_ia] at ho; exact mem_buildOuts ho
  · rw [outs_bs] at ho; exact mem_buildOuts ho
  · rw [outs_ed] at ho; exact mem_buildOuts ho
  · rw [outs_es] at ho; exact mem_buildOuts ho
  · rw [outs_sd] at ho; exact mem_buildOuts ho
  · rw [outs_idd] at ho; exact mem_buildOuts ho
  · rw [outs_ss] at ho; exact mem_buildOuts ho
  · rw [outs_ids] at ho; exact mem_buildOuts ho
  · rw [outs_lu] at ho; exact mem_buildOuts ho
  · rw [outs_sv] at ho; exact mem_buildOuts ho

theorem aBlocks_nodup {fastqs : List String} {ref : String} (h : fastqs.Nodup) :
    ∀ b ∈ aBlocks fastqs ref, b.2.Nodup := by
  have h0 := @alOuts_nodup fastqs ref h
  have h1 : (stageOuts (sortAlignmentStage fastqs ref)).Nodup := by
    rw [outs_sa]; exact buildOuts_nodup (by decide) h0
  have h2 : (stageOuts (indexAlignmentStage fastqs ref)).Nodup := by
    rw [outs_ia]; exact buildOuts_nodup (by decide) h1
  have h3 : (stageOuts (bamtoolsStatsStage fastqs ref)).Nodup := by
    rw [outs_bs]; exact buildOuts_nodup (by decide) h0
  have h4 : (stageOuts (extractDiscordantStage fastqs ref)).Nodup := by
    rw [outs_ed]; exact buildOuts_nodup (by decide) h0
  have h5 : (stageOuts (extractSplitStage fastqs ref)).Nodup := by
    rw [outs_es]; exact buildOuts_nodup (by decide) h0
  have h6 : (stageOuts (sortDiscordantsStage fastqs ref)).Nodup := by
    rw [outs_sd]; exact buildOuts_nodup (by decide) h4
  have h7 : (stageOuts (indexDiscordantsStage fastqs ref)).Nodup := by
    rw [outs_idd]; exact buildOuts_nodup (by decide) h6
  have h8 : (stageOuts (sortSplittersStage fastqs ref)).Nodup := by
    rw [outs_ss]; exact buildOuts_nodup (by decide) h5
  have h9 : (stageOuts (indexSplittersStage fastqs ref)).Nodup := by
    rw [outs_ids]; exact buildOuts_nodup (by decide) h8
  have h10 : (stageOuts (lumpyStage fastqs ref)).Nodup := by
    rw [outs_lu]; exact buildOuts_nodup (by decide) h0
  have h11 : (stageOuts (svtyperStage fastqs ref)).Nodup := by
    rw [outs_sv]; exact buildOuts_nodup (by decide) h10
  intro b hb
  simp only [aBlocks, List.mem_cons, List.not_mem_nil, or_false] at hb
  rcases hb with rfl|rfl|rfl|rfl|rfl|rfl|rfl|rfl|rfl|rfl|rfl|rfl
  exacts [h0, h1, h2, h3, h4, h5, h6, h7, h8, h9, h10, h11]

/-- Joined outputs of a list of chained blocks with pairwise-distinct
well-formed tags contain no duplicates. -/
theorem chained_blocks_nodup (blocks : List (String × List String))
    (hgood : ∀ t ∈ blocks.map Prod.fst, goodTag t = true)
    (hshape : ∀ b ∈ blocks, ∀ o ∈ b.2, AOut b.1 o)
    (hnd : ∀ b ∈ blocks, b.2.Nodup)
    (htags : (blocks.map Prod.fst).Nodup) :
    ((blocks.map Prod.snd).flatten).Nodup := by
  induction blocks with
  | nil => simp
  | cons b rest ih =>
    rw [List.map_cons, List.nodup_cons] at htags
    obtain ⟨hnotin, htailnd⟩ := htags
    simp only [List.map_cons, List.flatten_cons]
    refine List.Nodup.append (hnd b (by simp)) ?_ ?_
    · exact ih (fun x hx => hgood x (by simp [hx])) (fun x hx => hshape x (by simp [hx]))
        (fun x hx => hnd x (by simp [hx])) htailnd
    · intro o ho hor
      rw [List.mem_flatten] at hor
      obtain ⟨l, hl, hol⟩ := hor
      rw [List.mem_map] at hl
      obtain ⟨b', hb', hbl⟩ := hl
      have hne : b.1 ≠ b'.1 := by
        intro he
        exact hnotin (he ▸ List.mem_map.mpr ⟨b', hb', rfl⟩)
      exact AOut_ne (hgood b.1 (List.mem_map.mpr ⟨b, by simp, rfl⟩))
        (hgood b'.1 (List.mem_map.mpr ⟨b', by simp [hb'], rfl⟩)) hne
        (hshape b (by simp) o ho) (hshape b' (by simp [hb']) o (by rw [hbl]; exact hol)) rfl

theorem aBlocks_flatten_shape {fastqs : List String} {ref : String} :
    ∀ o ∈ ((aBlocks fastqs ref).map Prod.snd).flatten, TagOut aTags o := by
  intro o ho
  rw [List.mem_flatten] at ho
  obtain ⟨l, hl, hol⟩ := ho
  rw [List.mem_map] at hl
  obtain ⟨b, hb, hbl⟩ := hl
  obtain ⟨d, s, _, _, hos⟩ := aBlocks_shape b hb o (by rw [hbl]; exact hol)
  refine ⟨b.1, ?_, d ++ "/" ++ s, hos⟩
  rw [← @aBlocks_tags fastqs ref]
  exact List.mem_map.mpr ⟨b, hb, rfl⟩

theorem stageOuts_makePipeline {fastqs : List String} {ref : String} :
    stageOuts (makePipeline fastqs ref) =
      stageOuts (fastqcStage fastqs) ++
      (stageOuts (indexReferenceBwaStage ref) ++
      (stageOuts (indexReferenceSamtoolsStage ref) ++
      ((aBlocks fastqs ref).map Prod.snd).flatten)) := by
  unfold makePipeline
  simp only [stageOuts_append, aBlocks, List.map_cons, List.map_nil, List.flatten_cons,
    List.flatten_nil, List.append_nil, List.append_assoc]

theorem pipeline_outs_nodup (fastqs : List String) (ref : String) (h : fastqs.Nodup) :
    (stageOuts (makePipeline fastqs ref)).Nodup := by
  have hA : (((aBlocks fastqs ref).map Prod.snd).flatten).Nodup := by
    refine chained_blocks_nodup _ ?_ aBlocks_shape (aBlocks_nodup h) ?_
    · rw [aBlocks_tags]
      decide
    · rw [aBlocks_tags]; decide
  rw [stageOuts_makePipeline]
  refine List.Nodup.append (fastqcOuts_nodup h) ?_ ?_
  · refine List.Nodup.append idxBwaOuts_nodup ?_ ?_
    · exact List.Nodup.append idxSamOuts_nodup hA
        (disjoint_of_tags idxSamOuts_shape aBlocks_flatten_shape (by decide))
    · rw [List.disjoint_append_right]
      exact ⟨disjoint_of_tags idxBwaOuts_shape idxSamOuts_shape (by decide),
             disjoint_of_tags idxBwaOuts_shape aBlocks_flatten_shape (by decide)⟩
  · rw [List.disjoint_append_right, List.disjoint_append_right]
    exact ⟨disjoint_of_tags fastqcOuts_shape idxBwaOuts_shape (by decide),
           disjoint_of_tags fastqcOuts_shape idxSamOuts_shape (by decide),
           disjoint_of_tags fastqcOuts_shape aBlocks_flatten_shape (by decide)⟩

/-- **C2.** For every duplicate-free set of root fastq files and every
reference file, any two distinct task instances of the built pipeline have
disjoint resolved outputs: no file path is declared as an output by two
instances, across stages or across samples. -/
theorem C2_outputs_disjoint (fastqs : List String) (ref : String) (hnd : fastqs.Nodup) :
    (makePipeline fastqs ref).Pairwise (fun a b => ∀ o ∈ a.outputs, o ∉ b.outputs) := by
  have h := pipeline_outs_nodup fastqs ref hnd
  unfold stageOuts at h
  have h2 := (List.nodup_flatten.mp h).2
  rw [List.pairwise_map] at h2
  exact List.Pairwise.imp (fun hab o ho hob => hab ho hob) h2

/-- Closed instance of `C2_outputs_disjoint` on a two-sample root set. -/
theorem C2_outputs_disjoint_witness :
    (["data/S1_R1.fastq.gz", "data/S1_R2.fastq.gz", "data/S2_R1.fastq.gz",
      "data/S2_R2.fastq.gz"] : List String).Nodup ∧
    (makePipeline ["data/S1_R1.fastq.gz", "data/S1_R2.fastq.gz", "data/S2_R1.fastq.gz",
      "data/S2_R2.fastq.gz"] "ref.fa").Pairwise
      (fun a b => ∀ o ∈ a.outputs, o ∉ b.outputs) :=
  ⟨by decide, C2_outputs_disjoint _ _ (by decide)⟩

/-! ### Scheduling state machine (modelled from the spec, §3/§4.3/§4.4) -/

/-- Task statuses. -/
inductive Status where
  | pending | ready | running | done | skipped | failed | blocked
deriving DecidableEq, Repr

/-- Terminal non-failing statuses. -/
def termOk : Status → Bool
  | .done => true
  | .skipped => true
  | _ => false

/-- Failing terminal statuses that propagate blocking. -/
def badSt : Status → Bool
  | .failed => true
  | .blocked => true
  | _ => false

/-- Modelled from the spec: a file-based edge — instance `a` declares an
output that instance `b` consumes. -/
def fileEdge (a b : TaskInstance) : Bool :=
  a.outputs.any fun o => decide (o ∈ b.inputs)

/-- Modelled from the spec (§3): captured-field compatibility for explicit
predecessor edges — when both instances capture a sample, they must agree. -/
def sampleCompat (a b : TaskInstance) : Bool :=
  match a.sample, b.sample with
  | some x, some y => x == y
  | _, _ => true

/-- Modelled from the spec: an explicit `.follows` edge from every instance
of a named predecessor stage, restricted to matching captured fields. -/
def explicitEdge (a b : TaskInstance) : Bool :=
  decide (a.stage ∈ explicitPreds b.stage) && sampleCompat a b

/-- Predecessor edge: file-based or explicit. -/
def predEdge (a b : TaskInstance) : Bool := fileEdge a b || explicitEdge a b

def nodeAt (ts : List TaskInstance) (i : Nat) : TaskInstance := ts.getD i default

/-- Indices of the predecessors of node `i`. -/
def predIdx (ts : List TaskInstance) (i : Nat) : List Nat :=
  (List.range ts.length).filter fun j => predEdge (nodeAt ts j) (nodeAt ts i)

/-- Modelled from the spec (§4.3 StalenessOracle): run if forced, or an
output is missing, or an output is older than an input. -/
def needsRun (mtime : String → Option Nat) (forced : String → Bool) (t : TaskInstance) : Bool :=
  forced t.stage ||
  t.outputs.any (fun o => (mtime o).isNone) ||
  t.outputs.any (fun o => t.inputs.any (fun inp =>
    match mtime o, mtime inp with
    | some mo, some mi => decide (mo < mi)
    | _, _ => false))

/-- Scheduler transitions. -/
inductive Act where
  | toReady (i : Nat)
  | toSkip (i : Nat)
  | toRun (i : Nat)
  | toDone (i : Nat)
  | toFail (i : Nat)
  | toBlock (i : Nat)
deriving DecidableEq, Repr

/-- Modelled from the spec (§4.4 Scheduler): one state-machine step.
A node becomes ready only when every predecessor is terminal non-failing;
a ready node is dispatched (`toRun`) exactly when the staleness oracle says
run, and skipped exactly when it says skip; a pending node with a failed or
blocked predecessor becomes blocked. -/
def applyAct (ts : List TaskInstance) (mtime : String → Option Nat) (forced : String → Bool) :
    Act → List Status → Option (List Status)
  | .toReady i, σ =>
    if i < ts.length ∧ σ.getD i .pending = .pending ∧
        (predIdx ts i).all (fun j => termOk (σ.getD j .pending)) = true then
      some (σ.set i .ready)
    else none
  | .toSkip i, σ =>
    if σ.getD i .pending = .ready ∧ needsRun mtime forced (nodeAt ts i) = false then
      some (σ.set i .skipped)
    else none
  | .toRun i, σ =>
    if σ.getD i .pending = .ready ∧ needsRun mtime forced (nodeAt ts i) = true then
      some (σ.set i .running)
    else none
  | .toDone i, σ =>
    if σ.getD i .pending = .running then some (σ.set i .done) else none
  | .toFail i, σ =>
    if σ.getD i .pending = .running then some (σ.set i .failed) else none
  | .toBlock i, σ =>
    if σ.getD i .pending = .pending ∧
        (predIdx ts i).any (fun j => badSt (σ.getD j .pending)) = true then
      some (σ.set i .blocked)
    else none

/-- All nodes pending at run start. -/
def initSt (ts : List TaskInstance) : List Status := List.replicate ts.length .pending

/-- States reachable by the scheduler. -/
inductive Reach (ts : List TaskInstance) (mtime : String → Option Nat) (forced : String → Bool) :
    List Status → Prop
  | init : Reach ts mtime forced (initSt ts)
  | step {σ σ' : List Status} {a : Act} : Reach ts mtime forced σ →
      applyAct ts mtime forced a σ = some σ' → Reach ts mtime forced σ'

/-- Run a list of scheduler actions in order. -/
def runActs (ts : List TaskInstance) (mtime : String → Option Nat) (forced : String → Bool) :
    List Act → List Status → Option (List Status)
  | [], σ => some σ
  | a :: rest, σ =>
    match applyAct ts mtime forced a σ with
    | some σ' => runActs ts mtime forced rest σ'
    | none => none

theorem reach_of_runActs {ts mtime forced} {acts : List Act} {σ σ' : List Status}
    (h : runActs ts mtime forced acts σ = some σ') (hσ : Reach ts mtime forced σ) :
    Reach ts mtime forced σ' := by
  induction acts generalizing σ with
  | nil =>
    simp only [runActs, Option.some.injEq] at h
    rw [← h]; exact hσ
  | cons a rest ih =>
    simp only [runActs] at h
    cases ha : applyAct ts mtime forced a σ with
    | none => rw [ha] at h; exact absurd h (by simp)
    | some σ1 =>
      rw [ha] at h
      exact ih h (Reach.step hσ ha)

theorem getD_set_self {l : List Status} {i : Nat} (h : i < l.length) (a d : Status) :
    (l.set i a).getD i d = a := by
  simp [List.getD_eq_getElem?_getD, List.getElem?_set, h]

theorem getD_set_diff {l : List Status} {i j : Nat} (h : j ≠ i) (a d : Status) :
    (l.set i a).getD j d = l.getD j d := by
  simp [List.getD_eq_getElem?_getD, List.getElem?_set, Ne.symm h]

theorem nodeAt_mem {ts : List TaskInstance} {i : Nat} (h : i < ts.length) :
    nodeAt ts i ∈ ts := by
  unfold nodeAt
  rw [List.getD_eq_getElem?_getD]
  have he : ts[i]? = some ts[i] := List.getElem?_eq_getElem h
  rw [he]
  simp [List.getElem_mem]

theorem initSt_getD (ts : List TaskInstance) (i : Nat) :
    (initSt ts).getD i .pending = .pending := by
  unfold initSt
  rw [List.getD_eq_getElem?_getD]
  simp only [List.getElem?_replicate]
  split <;> rfl

theorem lt_of_getD_ne {σ : List Status} {i : Nat} (h : σ.getD i .pending ≠ .pending) :
    i < σ.length := by
  by_contra hge
  exact h (List.getD_eq_default σ _ (Nat.le_of_not_lt hge))

theorem reach_length {ts mtime forced σ} (hr : Reach ts mtime forced σ) :
    σ.length = ts.length := by
  induction hr with
  | init => simp [initSt]
  | step hprev hstep ih =>
    rename_i σ0 σ1 a
    cases a <;> (
      simp only [applyAct] at hstep
      split at hstep
      · simp only [Option.some.injEq] at hstep
        rw [← hstep, List.length_set]
        exact ih
      · exact absurd hstep (by simp))

/-- Statuses that have passed through `ready` (and hence had their
predecessors checked). -/
def okSt : Status → Bool
  | .pending => false
  | .blocked => false
  | _ => true

/-- Invariant: every node that has been made ready (or moved beyond) has all
its predecessors in a terminal non-failing status. -/
theorem reach_preds_terminal {ts mtime forced σ} (hr : Reach ts mtime forced σ) :
    ∀ i, okSt (σ.getD i .pending) = true →
      ∀ j ∈ predIdx ts i, termOk (σ.getD j .pending) = true := by
  induction hr with
  | init =>
    intro i hi
    rw [initSt_getD] at hi
    exact absurd hi (by decide)
  | step hprev hstep ih =>
    rename_i σ0 σ1 a
    have hlen := reach_length hprev
    cases a with
    | toReady k =>
      simp only [applyAct] at hstep
      split at hstep
      case isFalse => exact absurd hstep (by simp)
      case isTrue hcond =>
        obtain ⟨hk, hpend, hall⟩ := hcond
        simp only [Option.some.injEq] at hstep
        subst hstep
        intro i hi j hj
        by_cases hjk : j = k
        · by_cases hik : i = k
          · rw [hik] at hj
            have hterm := List.all_eq_true.mp hall j hj
            rw [hjk, hpend] at hterm
            exact absurd hterm (by decide)
          · rw [getD_set_diff hik] at hi
            have hterm := ih i hi j hj
            rw [hjk, hpend] at hterm
            exact absurd hterm (by decide)
        · rw [getD_set_diff hjk]
          by_cases hik : i = k
          · rw [hik] at hj
            exact List.all_eq_true.mp hall j hj
          · rw [getD_set_diff hik] at hi
            exact ih i hi j hj
    | toSkip k =>
      simp only [applyAct] at hstep
      split at hstep
      case isFalse => exact absurd hstep (by simp)
      case isTrue hcond =>
        obtain ⟨hready, _⟩ := hcond
        have hkσ : k < σ0.length := lt_of_getD_ne (by rw [hready]; decide)
        have hkOk : okSt (σ0.getD k .pending) = true := by rw [hready]; decide
        simp only [Option.some.injEq] at hstep
        subst hstep
        intro i hi j hj
        by_cases hjk : j = k
        · rw [hjk, getD_set_self hkσ]
          decide
        · rw [getD_set_diff hjk]
          by_cases hik : i = k
          · rw [hik] at hj
            exact ih k hkOk j hj
          · rw [getD_set_diff hik] at hi
            exact ih i hi j hj
    | toRun k =>
      simp only [applyAct] at hstep
      split at hstep
      case isFalse => exact absurd hstep (by simp)
      case isTrue hcond =>
        obtain ⟨hready, _⟩ := hcond
        have hkOk : okSt (σ0.getD k .pending) = true := by rw [hready]; decide
        simp only [Option.some.injEq] at hstep
        subst hstep
        intro i hi j hj
        by_cases hjk : j = k
        · by_cases hik : i = k
          · rw [hik] at hj
            have hterm := ih k hkOk j hj
            rw [hjk, hready] at hterm
            exact absurd hterm (by decide)
          · rw [getD_set_diff hik] at hi
            have hterm := ih i hi j hj
            rw [hjk, hready] at hterm
            exact absurd hterm (by decide)
        · rw [getD_set_diff hjk]
          by_cases hik : i = k
          · rw [hik] at hj
            exact ih k hkOk j hj
          · rw [getD_set_diff hik] at hi
            exact ih i hi j hj
    | toDone k =>
      simp only [applyAct] at hstep
      split at hstep
      case isFalse => exact absurd hstep (by simp)
      case isTrue hrunning =>
        have hkσ : k < σ0.length := lt_of_getD_ne (by rw [hrunning]; decide)
        have hkOk : okSt (σ0.getD k .pending) = true := by rw [hrunning]; decide
        simp only [Option.some.injEq] at hstep
        subst hstep
        intro i hi j hj
        by_cases hjk : j = k
        · rw [hjk, getD_set_self hkσ]
          decide
        · rw [getD_set_diff hjk]
          by_cases hik : i = k
          · rw [hik] at hj
            exact ih k hkOk j hj
          · rw [getD_set_diff hik] at hi
            exact ih i hi j hj
    | toFail k =>
      simp only [applyAct] at hstep
      split at hstep
      case isFalse => exact absurd hstep (by simp)
      case isTrue hrunning =>
        have hkOk : okSt (σ0.getD k .pending) = true := by rw [hrunning]; decide
        simp only [Option.some.injEq] at hstep
        subst hstep
        intro i hi j hj
        by_cases hjk : j = k
        · by_cases hik : i = k
          · rw [hik] at hj
            have hterm := ih k hkOk j hj
            rw [hjk, hrunning] at hterm
            exact absurd hterm (by decide)
          · rw [getD_set_diff hik] at hi
            have hterm := ih i hi j hj
            rw [hjk, hrunning] at hterm
            exact absurd hterm (by decide)
        · rw [getD_set_diff hjk]
          by_cases hik : i = k
          · rw [hik] at hj
            exact ih k hkOk j hj
          · rw [getD_set_diff hik] at hi
            exact ih i hi j hj
    | toBlock k =>
      simp only [applyAct] at hstep
      split at hstep
      case isFalse => exact absurd hstep (by simp)
      case isTrue hcond =>
        obtain ⟨hpend, _⟩ := hcond
        simp only [Option.some.injEq] at hstep
        subst hstep
        intro i hi j hj
        by_cases hik : i = k
        · by_cases hkσ : k < σ0.length
          · rw [hik, getD_set_self hkσ] at hi
            exact absurd hi (by decide)
          · rw [hik] at hi
            rw [List.set_eq_of_length_le (Nat.le_of_not_lt hkσ)] at hi
            rw [hpend] at hi
            exact absurd hi (by decide)
        · rw [getD_set_diff hik] at hi
          by_cases hjk : j = k
          · have hterm := ih i hi j hj
            rw [hjk, hpend] at hterm
            exact absurd hterm (by decide)
          · rw [getD_set_diff hjk]
            exact ih i hi j hj

theorem block_of_stage_align {fastqs : List String} {ref : String} {t : TaskInstance}
    (h : t ∈ makePipeline fastqs ref) (hst : t.stage = "align_bwa") :
    t ∈ alignBwaStage fastqs ref := by
  rw [mem_makePipeline_iff] at h
  rcases h with h|h|h|h|h|h|h|h|h|h|h|h|h|h|h
  · rw [stage_of_fastqcStage h] at hst; exact absurd hst (by decide)
  · rw [stage_of_indexReferenceBwaStage h] at hst; exact absurd hst (by decide)
  · rw [stage_of_indexReferenceSamtoolsStage h] at hst; exact absurd hst (by decide)
  · exact h
  · rw [stage_of_chainStage h] at hst; exact absurd hst (by decide)
  · rw [stage_of_chainStage h] at hst; exact absurd hst (by decide)
  · rw [stage_of_chainStage h] at hst; exact absurd hst (by decide)
  · rw [stage_of_chainStage h] at hst; exact absurd hst (by decide)
  · rw [stage_of_chainStage h] at hst; exact absurd hst (by decide)
  · rw [stage_of_chainStage h] at hst; exact absurd hst (by decide)
  · rw [stage_of_chainStage h] at hst; exact absurd hst (by decide)
  · rw [stage_of_chainStage h] at hst; exact absurd hst (by decide)
  · rw [stage_of_chainStage h] at hst; exact absurd hst (by decide)
  · rw [stage_of_chainStage h] at hst; exact absurd hst (by decide)
  · rw [stage_of_chainStage h] at hst; exact absurd hst (by decide)

theorem index_shape_of_mem {fastqs : List String} {ref : String} {t : TaskInstance}
    (h : t ∈ makePipeline fastqs ref)
    (hst : t.stage = "index_reference_bwa" ∨ t.stage = "index_reference_samtools") :
    t.sample = none ∧ ∃ stem, ref = stem ++ ".fa" ∧
      ∀ o ∈ t.outputs, ∃ tg ∈ (".fa.fai" :: bwaIndexTags), o = stem ++ tg := by
  rw [mem_makePipeline_iff] at h
  rcases h with h|h|h|h|h|h|h|h|h|h|h|h|h|h|h
  · rw [stage_of_fastqcStage h] at hst
    rcases hst with h'|h' <;> exact absurd h' (by decide)
  · obtain ⟨stem, href, htt⟩ := mem_indexReferenceBwaStage.mp h
    subst htt
    refine ⟨rfl, stem, href, ?_⟩
    intro o ho
    simp only [List.mem_map] at ho
    obtain ⟨tg, htg, hot⟩ := ho
    exact ⟨tg, by simp [htg], hot.symm⟩
  · obtain ⟨stem, href, htt⟩ := mem_indexReferenceSamtoolsStage.mp h
    subst htt
    refine ⟨rfl, stem, href, ?_⟩
    intro o ho
    simp only [List.mem_singleton] at ho
    exact ⟨".fa.fai", by simp, ho⟩
  · rw [stage_of_alignBwaStage h] at hst
    rcases hst with h'|h' <;> exact absurd h' (by decide)
  all_goals rw [stage_of_chainStage h] at hst
  all_goals rcases hst with h'|h' <;> exact absurd h' (by decide)

theorem str_tag_ne {x y t1 t2 : String} (h1 : hasTail t2.data t1.data = false)
    (h2 : hasTail t1.data t2.data = false) : x ++ t1 ≠ y ++ t2 := by
  intro he
  refine ne_of_tag_clash (x := x.data) (y := y.data) h1 h2 ?_
  rw [← String.data_append, ← String.data_append, he]

/-- Helper: `sampleCompat` holds whenever the predecessor captures no
sample. -/
theorem sampleCompat_none_left {a b : TaskInstance} (h : a.sample = none) :
    sampleCompat a b = true := by
  unfold sampleCompat
  rw [h]

/-- **C3.** In every reachable scheduler state of the built pipeline, if an
`align_bwa` instance is running then every `index_reference_bwa` and
`index_reference_samtools` instance is in a terminal non-failing state; the
dependency is purely the explicit `.follows` edge — there is no file-based
edge from the index stages into `align_bwa` (its declared inputs do not
include the index files). -/
theorem C3_align_waits_for_index (fastqs : List String) (ref : String)
    (mtime : String → Option Nat) (forced : String → Bool) (σ : List Status)
    (hr : Reach (makePipeline fastqs ref) mtime forced σ) (i : Nat)
    (hi : i < (makePipeline fastqs ref).length)
    (hst : (nodeAt (makePipeline fastqs ref) i).stage = "align_bwa")
    (hrun : σ.getD i .pending = .running) :
    ∀ j, j < (makePipeline fastqs ref).length →
      ((nodeAt (makePipeline fastqs ref) j).stage = "index_reference_bwa" ∨
       (nodeAt (makePipeline fastqs ref) j).stage = "index_reference_samtools") →
      termOk (σ.getD j .pending) = true ∧
      fileEdge (nodeAt (makePipeline fastqs ref) j) (nodeAt (makePipeline fastqs ref) i) = false ∧
      explicitEdge (nodeAt (makePipeline fastqs ref) j)
        (nodeAt (makePipeline fastqs ref) i) = true := by
  intro j hjlen hjst
  have hmem_i := nodeAt_mem hi
  have hmem_j := nodeAt_mem hjlen
  obtain ⟨hsample_j, stem, href, houts⟩ := index_shape_of_mem hmem_j hjst
  have hexp : explicitEdge (nodeAt (makePipeline fastqs ref) j)
      (nodeAt (makePipeline fastqs ref) i) = true := by
    unfold explicitEdge
    rw [sampleCompat_none_left hsample_j, hst]
    rcases hjst with h'|h' <;> rw [h'] <;> decide
  have hfile : fileEdge (nodeAt (makePipeline fastqs ref) j)
      (nodeAt (makePipeline fastqs ref) i) = false := by
    obtain ⟨f, d, s, hfq, hfm, htt⟩ :=
      mem_alignBwaStage.mp (block_of_stage_align hmem_i hst)
    have hfr := (fmatch_eq_some hfm).1
    unfold fileEdge
    rw [List.any_eq_false]
    intro o ho
    obtain ⟨tg, htg, hotg⟩ := houts o ho
    simp only [decide_eq_true_eq]
    rw [htt]
    simp only [List.mem_cons, List.not_mem_nil, or_false]
    push_neg
    refine ⟨?_, ?_, ?_⟩
    · rw [hotg, hfr]
      simp only [bwaIndexTags, List.mem_cons, List.not_mem_nil, or_false] at htg
      have hfr2 : d ++ "/" ++ s ++ "_R1.fastq.gz" = (d ++ "/" ++ s) ++ "_R1.fastq.gz" := rfl
      rw [hfr2]
      rcases htg with rfl|rfl|rfl|rfl|rfl|rfl <;> exact str_tag_ne (by decide) (by decide)
    · rw [hotg]
      simp only [bwaIndexTags, List.mem_cons, List.not_mem_nil, or_false] at htg
      have hfr2 : d ++ "/" ++ s ++ "_R2.fastq.gz" = (d ++ "/" ++ s) ++ "_R2.fastq.gz" := rfl
      rw [hfr2]
      rcases htg with rfl|rfl|rfl|rfl|rfl|rfl <;> exact str_tag_ne (by decide) (by decide)
    · rw [hotg, href]
      intro he
      have := str_append_left_inj he
      simp only [bwaIndexTags, List.mem_cons, List.not_mem_nil, or_false] at htg
      rcases htg with rfl|rfl|rfl|rfl|rfl|rfl <;> exact absurd this (by decide)
  refine ⟨?_, hfile, hexp⟩
  have hjpred : j ∈ predIdx (makePipeline fastqs ref) i := by
    rw [predIdx, List.mem_filter, List.mem_range]
    refine ⟨hjlen, ?_⟩
    unfold predEdge
    rw [hexp, Bool.or_true]
  exact reach_preds_terminal hr i (by rw [hrun]; decide) j hjpred

theorem matchLt_eq_true {a b : Option Nat} :
    (match a, b with
      | some mo, some mi => decide (mo < mi)
      | _, _ => false) = true ↔
      ∃ mo mi, a = some mo ∧ b = some mi ∧ mo < mi := by
  cases a <;> cases b <;> simp

/-- Characterization of the staleness oracle: run exactly when forced, or an
output is missing, or an output is strictly older than an input. -/
theorem needsRun_iff {mtime : String → Option Nat} {forced : String → Bool}
    {t : TaskInstance} :
    needsRun mtime forced t = true ↔
      forced t.stage = true ∨ (∃ o ∈ t.outputs, mtime o = none) ∨
      (∃ o ∈ t.outputs, ∃ inp ∈ t.inputs,
        ∃ mo mi, mtime o = some mo ∧ mtime inp = some mi ∧ mo < mi) := by
  unfold needsRun
  rw [Bool.or_eq_true, Bool.or_eq_true, List.any_eq_true, List.any_eq_true]
  constructor
  · rintro ((hf | ⟨o, ho, hno⟩) | ⟨o, ho, hin⟩)
    · exact Or.inl hf
    · exact Or.inr (Or.inl ⟨o, ho, Option.isNone_iff_eq_none.mp hno⟩)
    · rw [List.any_eq_true] at hin
      obtain ⟨inp, hinp, hlt⟩ := hin
      obtain ⟨mo, mi, hmo, hmi, h⟩ := matchLt_eq_true.mp hlt
      exact Or.inr (Or.inr ⟨o, ho, inp, hinp, mo, mi, hmo, hmi, h⟩)
  · rintro (hf | ⟨o, ho, hno⟩ | ⟨o, ho, inp, hinp, mo, mi, hmo, hmi, h⟩)
    · exact Or.inl (Or.inl hf)
    · exact Or.inl (Or.inr ⟨o, ho, Option.isNone_iff_eq_none.mpr hno⟩)
    · refine Or.inr ⟨o, ho, ?_⟩
      rw [List.any_eq_true]
      exact ⟨inp, hinp, matchLt_eq_true.mpr ⟨mo, mi, hmo, hmi, h⟩⟩

/-- **C7.** For a task instance whose predecessors have all reached a
terminal non-failing state (so that it is `ready` for dispatch), the
scheduler dispatches it for execution exactly when some resolved output is
missing, or some resolved output is older than some resolved input, or a
forced rebuild of its stage was requested; otherwise (and only otherwise)
it is skipped. -/
theorem C7_staleness_rule (ts : List TaskInstance) (mtime : String → Option Nat)
    (forced : String → Bool) (σ : List Status) (i : Nat)
    (hready : σ.getD i .pending = .ready)
    (hpreds : ∀ j ∈ predIdx ts i, termOk (σ.getD j .pending) = true) :
    ((applyAct ts mtime forced (Act.toRun i) σ).isSome = true ↔
      (forced (nodeAt ts i).stage = true ∨
       (∃ o ∈ (nodeAt ts i).outputs, mtime o = none) ∨
       (∃ o ∈ (nodeAt ts i).outputs, ∃ inp ∈ (nodeAt ts i).inputs,
         ∃ mo mi, mtime o = some mo ∧ mtime inp = some mi ∧ mo < mi))) ∧
    ((applyAct ts mtime forced (Act.toSkip i) σ).isSome = true ↔
      ¬ (forced (nodeAt ts i).stage = true ∨
       (∃ o ∈ (nodeAt ts i).outputs, mtime o = none) ∨
       (∃ o ∈ (nodeAt ts i).outputs, ∃ inp ∈ (nodeAt ts i).inputs,
         ∃ mo mi, mtime o = some mo ∧ mtime inp = some mi ∧ mo < mi))) := by
  constructor
  · rw [← @needsRun_iff mtime forced (nodeAt ts i)]
    simp only [applyAct]
    constructor
    · intro h
      split at h
      next hc => exact hc.2
      next => exact absurd h (by simp)
    · intro h
      rw [if_pos ⟨hready, h⟩]
      rfl
  · rw [← @needsRun_iff mtime forced (nodeAt ts i)]
    simp only [applyAct]
    constructor
    · intro h
      split at h
      next hc =>
        intro hcontra
        rw [hcontra] at hc
        exact absurd hc.2 (by simp)
      next => exact absurd h (by simp)
    · intro h
      rw [if_pos ⟨hready, by simpa using h⟩]
      rfl

theorem mem_predIdx {ts : List TaskInstance} {i j : Nat} :
    j ∈ predIdx ts i ↔ j < ts.length ∧ predEdge (nodeAt ts j) (nodeAt ts i) = true := by
  unfold predIdx
  rw [List.mem_filter, List.mem_range]

/-- A chain of predecessor edges (an ancestry path) in the task graph. -/
inductive PredPath (ts : List TaskInstance) : Nat → Nat → Prop where
  | single {j i : Nat} : j < ts.length → predEdge (nodeAt ts j) (nodeAt ts i) = true →
      PredPath ts j i
  | trans {k j i : Nat} : k < ts.length → predEdge (nodeAt ts k) (nodeAt ts j) = true →
      PredPath ts j i → PredPath ts k i

theorem predPath_snoc {ts : List TaskInstance} {a b c : Nat} (h : PredPath ts a b)
    (hb : b < ts.length) (he : predEdge (nodeAt ts b) (nodeAt ts c) = true) :
    PredPath ts a c := by
  induction h with
  | single hj hje => exact PredPath.trans hj hje (PredPath.single hb he)
  | trans hk hke _ ih => exact PredPath.trans hk hke (ih hb he)

theorem predPath_closure {ts : List TaskInstance} {P : Nat → Prop}
    (hstep : ∀ u, u < ts.length → ∀ v, predEdge (nodeAt ts u) (nodeAt ts v) = true →
      P v → P u) :
    ∀ a b, PredPath ts a b → P b → P a := by
  intro a b hp
  induction hp with
  | single hj hje => intro hPb; exact hstep _ hj _ hje hPb
  | trans hk hke _ ih => intro hPb; exact hstep _ hk _ hke (ih hPb)

/-- Invariant: a blocked node always has a failed ancestor in the
predecessor graph. -/
theorem reach_blocked_failed_ancestor {ts mtime forced σ} (hr : Reach ts mtime forced σ) :
    ∀ i, σ.getD i .pending = .blocked →
      ∃ j, PredPath ts j i ∧ σ.getD j .pending = .failed := by
  induction hr with
  | init =>
    intro i hi
    rw [initSt_getD] at hi
    exact absurd hi (by decide)
  | step hprev hstep ih =>
    rename_i σ0 σ1 a
    cases a with
    | toBlock k =>
      simp only [applyAct] at hstep
      split at hstep
      case isFalse => exact absurd hstep (by simp)
      case isTrue hcond =>
        obtain ⟨hpend, hany⟩ := hcond
        simp only [Option.some.injEq] at hstep
        subst hstep
        intro i hib
        by_cases hik : i = k
        · rw [List.any_eq_true] at hany
          obtain ⟨j, hjmem, hbad⟩ := hany
          obtain ⟨hjlen, hjedge⟩ := mem_predIdx.mp hjmem
          cases hsj : σ0.getD j .pending with
          | failed =>
            have hjk : j ≠ k := by
              intro he
              rw [he, hpend] at hsj
              exact absurd hsj (by decide)
            refine ⟨j, ?_, ?_⟩
            · rw [hik]
              exact PredPath.single hjlen hjedge
            · rw [getD_set_diff hjk]
              exact hsj
          | blocked =>
            obtain ⟨j', hpath', hfail'⟩ := ih j hsj
            have hjk' : j' ≠ k := by
              intro he
              rw [he, hpend] at hfail'
              exact absurd hfail' (by decide)
            refine ⟨j', ?_, ?_⟩
            · rw [hik]
              exact predPath_snoc hpath' hjlen hjedge
            · rw [getD_set_diff hjk']
              exact hfail'
          | pending => rw [hsj] at hbad; exact absurd hbad (by decide)
          | ready => rw [hsj] at hbad; exact absurd hbad (by decide)
          | running => rw [hsj] at hbad; exact absurd hbad (by decide)
          | done => rw [hsj] at hbad; exact absurd hbad (by decide)
          | skipped => rw [hsj] at hbad; exact absurd hbad (by decide)
        · rw [getD_set_diff hik] at hib
          obtain ⟨j, hpath, hfail⟩ := ih i hib
          have hjk : j ≠ k := by
            intro he
            rw [he, hpend] at hfail
            exact absurd hfail (by decide)
          refine ⟨j, hpath, ?_⟩
          rw [getD_set_diff hjk]
          exact hfail
    | toReady k =>
      simp only [applyAct] at hstep
      split at hstep
      case isFalse => exact absurd hstep (by simp)
      case isTrue hcond =>
        obtain ⟨hk, hpre, _⟩ := hcond
        simp only [Option.some.injEq] at hstep
        subst hstep
        intro i hib
        by_cases hik : i = k
        · rw [hik] at hib
          by_cases hkl : k < σ0.length
          · rw [getD_set_self hkl] at hib
            exact absurd hib (by decide)
          · rw [List.set_eq_of_length_le (Nat.le_of_not_lt hkl)] at hib
            rw [hpre] at hib
            exact absurd hib (by decide)
        · rw [getD_set_diff hik] at hib
          obtain ⟨j, hpath, hfail⟩ := ih i hib
          have hjk : j ≠ k := by
            intro he
            rw [he, hpre] at hfail
            exact absurd hfail (by decide)
          refine ⟨j, hpath, ?_⟩
          rw [getD_set_diff hjk]
          exact hfail
    | toSkip k =>
      simp only [applyAct] at hstep
      split at hstep
      case isFalse => exact absurd hstep (by simp)
      case isTrue hcond =>
        obtain ⟨hpre, _⟩ := hcond
        simp only [Option.some.injEq] at hstep
        subst hstep
        intro i hib
        by_cases hik : i = k
        · rw [hik] at hib
          by_cases hkl : k < σ0.length
          · rw [getD_set_self hkl] at hib
            exact absurd hib (by decide)
          · rw [List.set_eq_of_length_le (Nat.le_of_not_lt hkl)] at hib
            rw [hpre] at hib
            exact absurd hib (by decide)
        · rw [getD_set_diff hik] at hib
          obtain ⟨j, hpath, hfail⟩ := ih i hib
          have hjk : j ≠ k := by
            intro he
            rw [he, hpre] at hfail
            exact absurd hfail (by decide)
          refine ⟨j, hpath, ?_⟩
          rw [getD_set_diff hjk]
          exact hfail
    | toRun k =>
      simp only [applyAct] at hstep
      split at hstep
      case isFalse => exact absurd hstep (by simp)
      case isTrue hcond =>
        obtain ⟨hpre, _⟩ := hcond
        simp only [Option.some.injEq] at hstep
        subst hstep
        intro i hib
        by_cases hik : i = k
        · rw [hik] at hib
          by_cases hkl : k < σ0.length
          · rw [getD_set_self hkl] at hib
            exact absurd hib (by decide)
          · rw [List.set_eq_of_length_le (Nat.le_of_not_lt hkl)] at hib
            rw [hpre] at hib
            exact absurd hib (by decide)
        · rw [getD_set_diff hik] at hib
          obtain ⟨j, hpath, hfail⟩ := ih i hib
          have hjk : j ≠ k := by
            intro he
            rw [he, hpre] at hfail
            exact absurd hfail (by decide)
          refine ⟨j, hpath, ?_⟩
          rw [getD_set_diff hjk]
          exact hfail
    | toDone k =>
      simp only [applyAct] at hstep
      split at hstep
      case isFalse => exact absurd hstep (by simp)
      case isTrue hpre =>
        simp only [Option.some.injEq] at hstep
        subst hstep
        intro i hib
        by_cases hik : i = k
        · rw [hik] at hib
          by_cases hkl : k < σ0.length
          · rw [getD_set_self hkl] at hib
            exact absurd hib (by decide)
          · rw [List.set_eq_of_length_le (Nat.le_of_not_lt hkl)] at hib
            rw [hpre] at hib
            exact absurd hib (by decide)
        · rw [getD_set_diff hik] at hib
          obtain ⟨j, hpath, hfail⟩ := ih i hib
          have hjk : j ≠ k := by
            intro he
            rw [he, hpre] at hfail
            exact absurd hfail (by decide)
          refine ⟨j, hpath, ?_⟩
          rw [getD_set_diff hjk]
          exact hfail
    | toFail k =>
      simp only [applyAct] at hstep
      split at hstep
      case isFalse => exact absurd hstep (by simp)
      case isTrue hpre =>
        simp only [Option.some.injEq] at hstep
        subst hstep
        intro i hib
        by_cases hik : i = k
        · rw [hik] at hib
          by_cases hkl : k < σ0.length
          · rw [getD_set_self hkl] at hib
            exact absurd hib (by decide)
          · rw [List.set_eq_of_length_le (Nat.le_of_not_lt hkl)] at hib
            rw [hpre] at hib
            exact absurd hib (by decide)
        · rw [getD_set_diff hik] at hib
          obtain ⟨j, hpath, hfail⟩ := ih i hib
          by_cases hjk : j = k
          · refine ⟨j, hpath, ?_⟩
            by_cases hkl : k < σ0.length
            · rw [hjk, getD_set_self hkl]
            · rw [hjk, List.set_eq_of_length_le (Nat.le_of_not_lt hkl)]
              rw [hjk] at hfail
              exact hfail
          · refine ⟨j, hpath, ?_⟩
            rw [getD_set_diff hjk]
            exact hfail

theorem predEdge_to_default (a : TaskInstance) :
    predEdge a (default : TaskInstance) = false := by
  show predEdge a ⟨"", none, [], [], []⟩ = false
  unfold predEdge fileEdge explicitEdge
  simp [explicitPreds]

/-- Membership of a node in the S2 chain or the sample-free root/index
blocks. -/
def sampleQ (t : TaskInstance) : Bool :=
  (t.sample == some "S2") || (t.sample == none)

/-- Closure check: every predecessor edge into the S2-or-sample-free region
starts in the S2-or-sample-free region. -/
def crossClosureOk (ts : List TaskInstance) : Bool :=
  (List.range ts.length).all fun u => (List.range ts.length).all fun v =>
    !(predEdge (nodeAt ts u) (nodeAt ts v)) || !(sampleQ (nodeAt ts v)) ||
      sampleQ (nodeAt ts u)

theorem crossClosure_sound {ts : List TaskInstance} (h : crossClosureOk ts = true) :
    ∀ u, u < ts.length → ∀ v, predEdge (nodeAt ts u) (nodeAt ts v) = true →
      sampleQ (nodeAt ts v) = true → sampleQ (nodeAt ts u) = true := by
  intro u hu v hedge hq
  by_cases hv : v < ts.length
  · have h1 := List.all_eq_true.mp h u (List.mem_range.mpr hu)
    have h2 := List.all_eq_true.mp h1 v (List.mem_range.mpr hv)
    simp only [hedge, hq, Bool.not_true, Bool.false_or] at h2
    exact h2
  · have hdef : nodeAt ts v = default := by
      unfold nodeAt
      exact List.getD_eq_default _ _ (Nat.le_of_not_lt hv)
    rw [hdef, predEdge_to_default] at hedge
    exact absurd hedge (by simp)

/-- Roots of the two-sample scenario. -/
def c5Fastqs : List String :=
  ["data/S1_R1.fastq.gz", "data/S1_R2.fastq.gz", "data/S2_R1.fastq.gz", "data/S2_R2.fastq.gz"]

/-- The pipeline built for the two-sample scenario. -/
def c5Pipeline : List TaskInstance := makePipeline c5Fastqs "ref.fa"

/-- A schedule in which `S1`'s `sort_alignment` (node 8) fails and every
other dispatchable node runs. -/
def c5Acts : List Act :=
  [Act.toReady 0, Act.toRun 0, Act.toDone 0, Act.toReady 1, Act.toRun 1, Act.toDone 1,
   Act.toReady 2, Act.toRun 2, Act.toDone 2, Act.toReady 3, Act.toRun 3, Act.toDone 3,
   Act.toReady 4, Act.toRun 4, Act.toDone 4, Act.toReady 5, Act.toRun 5, Act.toDone 5,
   Act.toReady 6, Act.toRun 6, Act.toDone 6, Act.toReady 7, Act.toRun 7, Act.toDone 7,
   Act.toReady 8, Act.toRun 8, Act.toFail 8, Act.toReady 9, Act.toRun 9, Act.toDone 9,
   Act.toBlock 10, Act.toReady 11, Act.toRun 11, Act.toDone 11,
   Act.toReady 12, Act.toRun 12, Act.toDone 12, Act.toReady 13, Act.toRun 13, Act.toDone 13,
   Act.toReady 14, Act.toRun 14, Act.toDone 14, Act.toReady 15, Act.toRun 15, Act.toDone 15,
   Act.toReady 16, Act.toRun 16, Act.toDone 16, Act.toReady 17, Act.toRun 17, Act.toDone 17,
   Act.toReady 18, Act.toRun 18, Act.toDone 18, Act.toReady 19, Act.toRun 19, Act.toDone 19,
   Act.toReady 20, Act.toRun 20, Act.toDone 20, Act.toReady 21, Act.toRun 21, Act.toDone 21,
   Act.toReady 22, Act.toRun 22, Act.toDone 22, Act.toReady 23, Act.toRun 23, Act.toDone 23,
   Act.toReady 24, Act.toRun 24, Act.toDone 24, Act.toReady 25, Act.toRun 25, Act.toDone 25,
   Act.toReady 26, Act.toRun 26, Act.toDone 26, Act.toReady 27, Act.toRun 27, Act.toDone 27,
   Act.toBlock 28, Act.toReady 29, Act.toRun 29, Act.toDone 29]

/-- Terminal statuses reached by `c5Acts`. -/
def c5Final : List Status :=
  [Status.done, .done, .done, .done, .done, .done, .done, .done,
   .failed, .done, .blocked, .done, .done, .done, .done, .done,
   .done, .done, .done, .done, .done, .done, .done, .done,
   .done, .done, .done, .done, .blocked, .done]

/-- **C5.** Two samples `S1`, `S2` yield two independent `align_bwa`
instances; no predecessor edge connects an `S1`-sample node to an
`S2`-sample node in either direction; in every reachable scheduler state in
which the only failed node is `S1`'s `sort_alignment`, no `S2`-sample node
is ever blocked; and an explicit schedule reaches the normal terminal
status `done` for every `S2`-sample node while `S1`'s `sort_alignment` is
`failed`. -/
theorem C5_sample_isolation :
    (c5Pipeline.filter (fun t => t.stage == "align_bwa") =
      [⟨"align_bwa", some "S1",
        ["data/S1_R1.fastq.gz", "data/S1_R2.fastq.gz", "ref.fa"], ["S1"], ["data/S1.bam"]⟩,
       ⟨"align_bwa", some "S2",
        ["data/S2_R1.fastq.gz", "data/S2_R2.fastq.gz", "ref.fa"], ["S2"], ["data/S2.bam"]⟩]) ∧
    (∀ i < c5Pipeline.length, ∀ j < c5Pipeline.length,
      (nodeAt c5Pipeline i).sample = some "S1" → (nodeAt c5Pipeline j).sample = some "S2" →
      predEdge (nodeAt c5Pipeline i) (nodeAt c5Pipeline j) = false ∧
      predEdge (nodeAt c5Pipeline j) (nodeAt c5Pipeline i) = false) ∧
    (∀ mtime forced σ, Reach c5Pipeline mtime forced σ →
      (∀ k, σ.getD k .pending = .failed → k = 8) →
      ∀ i, (nodeAt c5Pipeline i).sample = some "S2" → σ.getD i .pending ≠ .blocked) ∧
    ((nodeAt c5Pipeline 8).stage = "sort_alignment" ∧
     (nodeAt c5Pipeline 8).sample = some "S1" ∧
     runActs c5Pipeline (fun _ => none) (fun _ => false) c5Acts (initSt c5Pipeline) =
       some c5Final ∧
     c5Final.getD 8 .pending = .failed ∧
     (∀ i < c5Pipeline.length, (nodeAt c5Pipeline i).sample = some "S2" →
       c5Final.getD i .pending = .done)) := by
  refine ⟨by decide, by decide, ?_, by decide, by decide, by decide, by decide, by decide⟩
  intro mtime forced σ hreach honly i hs2 hblocked
  obtain ⟨j, hpath, hfail⟩ := reach_blocked_failed_ancestor hreach i hblocked
  have hj8 := honly j hfail
  subst hj8
  have hQ : sampleQ (nodeAt c5Pipeline i) = true := by
    unfold sampleQ
    rw [hs2]
    decide
  have hQ8 := predPath_closure
    (P := fun k => sampleQ (nodeAt c5Pipeline k) = true)
    (fun u hu v he hq => crossClosure_sound (by decide) u hu v he hq)
    8 i hpath hQ
  exact absurd hQ8 (by decide)

/-- The single-sample pipeline used by the scheduling witnesses. -/
def c3Pipeline : List TaskInstance := makePipeline ["data/S1_R1.fastq.gz"] "ref.fa"

/-- A state with both reference-index stages done and `align_bwa` ready. -/
def c3Ready : List Status :=
  [Status.pending, .done, .done, .ready, .pending, .pending, .pending, .pending,
   .pending, .pending, .pending, .pending, .pending, .pending, .pending]

/-- A state with both reference-index stages done and `align_bwa` running. -/
def c3Running : List Status :=
  [Status.pending, .done, .done, .running, .pending, .pending, .pending, .pending,
   .pending, .pending, .pending, .pending, .pending, .pending, .pending]

theorem c3Running_reachable :
    Reach c3Pipeline (fun _ => none) (fun _ => false) c3Running := by
  have hrun : runActs c3Pipeline (fun _ => none) (fun _ => false)
      [Act.toReady 1, Act.toRun 1, Act.toDone 1, Act.toReady 2, Act.toRun 2, Act.toDone 2,
       Act.toReady 3, Act.toRun 3] (initSt c3Pipeline) = some c3Running := by decide
  exact reach_of_runActs hrun Reach.init

/-- Closed instance of `C3_align_waits_for_index`: in the reachable state
`c3Running` the running align instance has both index stages terminal. -/
theorem C3_align_waits_for_index_witness :
    termOk (c3Running.getD 1 .pending) = true ∧
    fileEdge (nodeAt c3Pipeline 1) (nodeAt c3Pipeline 3) = false ∧
    explicitEdge (nodeAt c3Pipeline 1) (nodeAt c3Pipeline 3) = true :=
  C3_align_waits_for_index ["data/S1_R1.fastq.gz"] "ref.fa" (fun _ => none) (fun _ => false)
    c3Running c3Running_reachable 3 (by decide) (by decide) (by decide) 1 (by decide)
    (Or.inl (by decide))

/-- Closed instance of `C7_staleness_rule`: with every output missing, the
ready align instance is dispatched for execution. -/
theorem C7_staleness_rule_witness :
    (applyAct c3Pipeline (fun _ => none) (fun _ => false) (Act.toRun 3) c3Ready).isSome
      = true :=
  ((C7_staleness_rule c3Pipeline (fun _ => none) (fun _ => false) c3Ready 3 (by decide)
      (by decide)).1).mpr
    (Or.inr (Or.inl ⟨"data/S1.bam", by decide, rfl⟩))

end Crpipe
